import Mathlib

/-!
Verification development for the foundryup toolchain version manager.

The definitions below are a shallow embedding of the installer's code:

* `src/install.rs` — the install orchestrator (`install_prebuilt`,
  `install_tempo_prebuilt`, `install_from_local`, `fetch_and_verify_attestation`,
  `parse_attestation_payload`, `download_and_extract`, `verify_installed_binaries`,
  `use_version`, `normalize_version`, `version_to_tag`);
* `src/download.rs` — `extract_zip` (and the surrounding archive handling);
* `src/config.rs` — `Config::new`;
* `src/platform.rs` — `Platform`, `Arch`, `Platform::archive_ext`;
* `src/self_update.rs` — `check_for_update`.

Conventions of the embedding:

* The POSIX (non-Windows) build of the binary is modelled, so `bin_name(b) = b`
  and the `#[cfg(unix)]` blocks are included while `#[cfg(windows)]` blocks are
  not.
* The filesystem is a finite map from paths (lists of components) to nodes
  (regular files with content and permission mode, or symbolic links).
* Network fetches, JSON parsing, base64 decoding and SHA-256 hashing are
  performed by external crates (`reqwest`, `serde_json`, `base64`, `sha2`);
  their *results* are threaded through the model as explicit inputs
  (a `World` record and a `JsonCodec` / `hash` function parameter), while the
  installer's own control flow over those results is translated exactly.
-/

set_option autoImplicit false

namespace Foundryup

/-- A filesystem path, as a list of components. -/
abbrev Path := List String

/-- A filesystem node: a regular file (content bytes modelled as a `String`,
plus its permission mode) or a symbolic link to a target path. -/
inductive FsNode where
  | file (content : String) (mode : Nat)
  | symlink (target : Path)
deriving DecidableEq, Repr

/-- A filesystem: an association list of nodes keyed by path, plus the set of
existing directories. -/
structure Fs where
  nodes : List (Path × FsNode)
  dirs : List Path
deriving DecidableEq, Repr

/-- First-match association lookup (used for both the filesystem and
attestation hash maps). -/
def assocFind {α β : Type} [DecidableEq α] (k : α) : List (α × β) → Option β
  | [] => none
  | e :: rest => if e.1 = k then some e.2 else assocFind k rest

@[simp] theorem assocFind_nil {α β : Type} [DecidableEq α] (k : α) :
    assocFind (β := β) k [] = none := rfl

theorem assocFind_cons {α β : Type} [DecidableEq α] (k : α) (e : α × β) (l : List (α × β)) :
    assocFind k (e :: l) = if e.1 = k then some e.2 else assocFind k l := rfl

/-- Look up the node stored at a path. -/
def Fs.read (fs : Fs) (p : Path) : Option FsNode :=
  assocFind p fs.nodes

/-- `Path::exists` on a path that names a file or link. -/
def Fs.fileExists (fs : Fs) (p : Path) : Bool :=
  (fs.read p).isSome

/-- `Path::exists` on a directory. -/
def Fs.dirExists (fs : Fs) (p : Path) : Bool :=
  fs.dirs.contains p

/-- Remove every binding of a key from an association list. -/
def eraseKey {α β : Type} [DecidableEq α] (k : α) : List (α × β) → List (α × β)
  | [] => []
  | e :: rest => if e.1 = k then eraseKey k rest else e :: eraseKey k rest

/-- Write (create or overwrite) a regular node at a path. -/
def Fs.write (fs : Fs) (p : Path) (n : FsNode) : Fs :=
  { fs with nodes := (p, n) :: eraseKey p fs.nodes }

/-- `fs::remove_file`. -/
def Fs.removeFile (fs : Fs) (p : Path) : Fs :=
  { fs with nodes := eraseKey p fs.nodes }

/-- `fs::create_dir_all`: registers the directory and all of its ancestors. -/
def Fs.mkdirAll (fs : Fs) (p : Path) : Fs :=
  { fs with dirs := p.inits ++ fs.dirs }

/-- Content and mode of the regular file a path resolves to (following one
level of symbolic link, as `fs::copy` and hashing do). -/
def Fs.statFile (fs : Fs) (p : Path) : Option (String × Nat) :=
  match fs.read p with
  | some (.file c m) => some (c, m)
  | some (.symlink t) =>
    match fs.read t with
    | some (.file c m) => some (c, m)
    | _ => none
  | none => none

/-- Content of the regular file a path resolves to. -/
def Fs.contentAt (fs : Fs) (p : Path) : Option String :=
  (fs.statFile p).map Prod.fst

/-- `std::fs::set_permissions(path, Permissions::from_mode(mode))` on a
regular file (no-op on anything else, links not followed in the model). -/
def Fs.chmod (fs : Fs) (p : Path) (mode : Nat) : Fs :=
  match fs.read p with
  | some (.file c _) => fs.write p (.file c mode)
  | _ => fs

/-- `compute_sha256` (`src/download.rs`): streams the file at `p` through a
SHA-256 hasher.  The hasher itself is the `sha2` crate; it is modelled by the
explicit function parameter `hash`. -/
def computeSha256 (hash : String → String) (fs : Fs) (p : Path) : Option String :=
  (fs.contentAt p).map hash

/-- Error classes of the installer (`eyre` errors, classified by the
`bail!`/`wrap_err` site that produces them). -/
inductive Err where
  | network
  | integrity
  | notInstalled
  | config
  | build
  | parse
deriving DecidableEq, Repr

/-- `Config` path layout (`src/config.rs`): every directory is derived from
`foundry_dir`. -/
structure Config where
  foundryDir : Path
deriving DecidableEq, Repr

/-- `config.versions_dir = foundry_dir.join("versions")`. -/
def Config.versionsDir (c : Config) : Path := c.foundryDir ++ ["versions"]

/-- `config.bin_dir = foundry_dir.join("bin")`. -/
def Config.binDir (c : Config) : Path := c.foundryDir ++ ["bin"]

/-- `config.man_dir = foundry_dir.join("share/man/man1")`. -/
def Config.manDir (c : Config) : Path := c.foundryDir ++ ["share", "man", "man1"]

/-- `config.version_dir(tag)` as used by `src/install.rs`. -/
def Config.versionDir (c : Config) (tag : String) : Path := c.versionsDir ++ [tag]

/-- `config.bin_path(bin)` (POSIX: no `.exe` suffix). -/
def Config.binPath (c : Config) (bin : String) : Path := c.binDir ++ [bin]

/-- `str::starts_with`, over the character list. -/
def strStartsWith (s pat : String) : Bool :=
  pat.data.isPrefixOf s.data

/-- `normalize_version` (`src/install.rs:588`): `starts_with("nightly")`
collapses to `"nightly"`; a leading ASCII digit
(`chars().next().map(is_ascii_digit).unwrap_or(false)`) gains a `v`;
everything else is unchanged. -/
def normalizeVersion (version : String) : String :=
  if strStartsWith version "nightly" then "nightly"
  else if (version.data.head?.map Char.isDigit).getD false then "v" ++ version
  else version

/-- `version_to_tag` (`src/install.rs:598`). -/
def versionToTag (version : String) : String := version

/-- A JSON value (`serde_json::Value`). -/
inductive Json where
  | null
  | bool (b : Bool)
  | num (n : Int)
  | str (s : String)
  | arr (elems : List Json)
  | obj (fields : List (String × Json))

/-- `serde_json::Value` indexing `v["k"]`: `Null` for a missing key or a
non-object. -/
def Json.get : Json → String → Json
  | .obj fields, k =>
    match assocFind k fields with
    | some v => v
    | none => .null
  | _, _ => .null

/-- `Value::as_str`. -/
def Json.asStr : Json → Option String
  | .str s => some s
  | _ => none

/-- `Value::as_array`. -/
def Json.asArray : Json → Option (List Json)
  | .arr elems => some elems
  | _ => none

/-- The external decoding crates (`serde_json::from_str`, the `base64`
engine, `serde_json::from_slice`), modelled as explicit function inputs;
`none` is a decoding failure.  Decoded bytes are modelled as a `String`. -/
structure JsonCodec where
  fromStr : String → Option Json
  b64decode : String → Option String
  fromBytes : String → Option Json

/-- The hash map built from the attestation statement's `subject` array
(`parse_attestation_payload`, loop at `src/install.rs:314`): each well-formed
`{name, digest.sha256}` entry is inserted; `HashMap::insert` overwrites, and
prepending with first-match lookup has the same lookup semantics. -/
def collectSubjects (entries : List Json) : List (String × String) :=
  entries.foldl
    (fun m entry =>
      match (entry.get "name").asStr, ((entry.get "digest").get "sha256").asStr with
      | some name, some digest => (name, digest) :: m
      | _, _ => m)
    []

/-- `parse_attestation_payload` (`src/install.rs:302`): parse the artifact
string as JSON, read `dsseEnvelope.payload` as a string, base64-decode it,
parse the decoded bytes as JSON, and collect the `subject` array (an absent
or non-array `subject` yields an empty map, not an error).  Every decoding
failure is a hard error (`?` on `serde_json`/`base64` results). -/
def parseAttestationPayload (codec : JsonCodec) (json : String) :
    Except Err (List (String × String)) :=
  match codec.fromStr json with
  | none => .error .integrity
  | some parsed =>
    match ((parsed.get "dsseEnvelope").get "payload").asStr with
    | none => .error .integrity
    | some payloadB64 =>
      match codec.b64decode payloadB64 with
      | none => .error .integrity
      | some payloadBytes =>
        match codec.fromBytes payloadBytes with
        | none => .error .integrity
        | some payloadJson =>
          .ok (match (payloadJson.get "subject").asArray with
               | some subject => collectSubjects subject
               | none => [])

/-- Split a character list at the first occurrence of `c`. -/
def breakAtChar (c : Char) : List Char → List Char × Option (List Char)
  | [] => ([], none)
  | x :: xs =>
    if x = c then ([], some xs)
    else
      let r := breakAtChar c xs
      (x :: r.1, r.2)

/-- `str::trim`, over the character list. -/
def trimAscii (l : List Char) : List Char :=
  ((l.dropWhile Char.isWhitespace).reverse.dropWhile Char.isWhitespace).reverse

/-- `content.lines().next().unwrap_or("").trim()` (`src/install.rs:243`):
the text up to the first newline, trimmed. -/
def firstLine (s : String) : String :=
  String.mk (trimAscii (breakAtChar '\n' s.data).1)

/-- `str::contains` with a literal pattern. -/
def containsSub (s pat : String) : Bool :=
  decide (pat.data <:+: s.data)

/-- `Platform` (`src/platform.rs`). -/
inductive Platform where
  | linux
  | alpine
  | darwin
  | win32
deriving DecidableEq, Repr

/-- `Platform::as_str`. -/
def Platform.asStr : Platform → String
  | .linux => "linux"
  | .alpine => "alpine"
  | .darwin => "darwin"
  | .win32 => "win32"

/-- `Platform::archive_ext` (`src/platform.rs:44`). -/
def Platform.archiveExt : Platform → String
  | .win32 => "zip"
  | _ => "tar.gz"

/-- `Arch` (`src/platform.rs`). -/
inductive Arch where
  | amd64
  | arm64
deriving DecidableEq, Repr

/-- `Arch::as_str`. -/
def Arch.asStr : Arch → String
  | .amd64 => "amd64"
  | .arm64 => "arm64"

/-- `Target` (`src/platform.rs`). -/
structure Target where
  platform : Platform
  arch : Arch
deriving DecidableEq, Repr

/-- The archive name built by `download_and_extract` (`src/install.rs:335`):
`foundry_{version}_{platform}_{arch}.{ext}`. -/
def archiveName (version : String) (t : Target) : String :=
  "foundry_" ++ version ++ "_" ++ t.platform.asStr ++ "_" ++ t.arch.asStr ++ "."
    ++ t.platform.archiveExt

/-- The archive name built by `download_and_extract_tempo`
(`src/install.rs:381`): `foundry_nightly_{platform}_{arch}.{ext}` — the
version component is the literal `nightly`. -/
def tempoArchiveName (t : Target) : String :=
  "foundry_nightly_" ++ t.platform.asStr ++ "_" ++ t.arch.asStr ++ "."
    ++ t.platform.archiveExt

/-- The install arguments relevant to the prebuilt flow (`Cli`). -/
structure Args where
  version : Option String
  force : Bool
deriving DecidableEq, Repr

/-- The archive name requested by `install_prebuilt`: the version string is
first normalized (`src/install.rs:36` and `:335`). -/
def prebuiltArchiveName (args : Args) (t : Target) : String :=
  archiveName (normalizeVersion (args.version.getD "stable")) t

/-- The archive name requested by `install_tempo_prebuilt`
(`src/install.rs:71` and `:381`): independent of the requested version. -/
def tempoPrebuiltArchiveName (_args : Args) (t : Target) : String :=
  tempoArchiveName t

/-- The network's observable behaviour during one install run: result of the
attestation-text fetch, of the attestation-artifact fetch, of the release
archive download (already extracted into a list of `(file name, content)`
entries), and of the manpage archive download.  `none` models a failed
fetch. -/
structure World where
  attTxt : Option String
  artifact : Option String
  archive : Option (List (String × String))
  man : Option (List (String × String))

/-- One iteration of the cache-check loop in `fetch_and_verify_attestation`
(`src/install.rs:270`): the expected hash must exist, the binary must be
present in the version directory, and the computed digest must equal the
expected one (on POSIX `bin_name(bin) = bin`, so the
`hashes.get(bin).or_else(get(bin_name))` chain is a single lookup). -/
def cacheBinMatches (hash : String → String) (fs : Fs) (vdir : Path)
    (hashes : List (String × String)) (bin : String) : Bool :=
  match assocFind bin hashes with
  | some expected =>
    match fs.contentAt (vdir ++ [bin]) with
    | some content => hash content == expected
    | none => false
  | none => false

/-- `all_match` of the cache-check loop: the loop breaks at the first
failure, which is extensionally `List.all`. -/
def cacheAllMatch (hash : String → String) (fs : Fs) (vdir : Path)
    (hashes : List (String × String)) (bins : List String) : Bool :=
  bins.all (cacheBinMatches hash fs vdir hashes)

/-- The per-binary body of the `use_version` loop (`src/install.rs:542`):
skip if the source file is absent, otherwise remove any existing destination,
copy, and set mode `0o755`. -/
def useVersionStep (cfg : Config) (tag : String) (fs : Fs) (bin : String) : Fs :=
  match fs.statFile (cfg.versionDir tag ++ [bin]) with
  | none => fs
  | some (content, mode) =>
    (((if fs.fileExists (cfg.binPath bin) then fs.removeFile (cfg.binPath bin)
       else fs).write (cfg.binPath bin) (.file content mode)).chmod
      (cfg.binPath bin) 0o755)

/-- `use_version` (`src/install.rs:533`): fails when no version directory
exists for the tag, otherwise copies each present binary into `bin_dir`
(the version reporting and PATH-shadowing warning are output only). -/
def useVersion (cfg : Config) (bins : List String) (fs : Fs) (tag : String) :
    Except Err Fs :=
  if cfg.versionDir tag ∈ fs.dirs then
    .ok (bins.foldl (useVersionStep cfg tag) fs)
  else
    .error .notInstalled

/-- The per-binary verdict of `verify_installed_binaries`
(`src/install.rs:431`), also recording which message is printed. -/
inductive VerifyEvent where
  | noExpectedHash (bin : String)
  | notFound (bin : String)
  | mismatch (bin : String) (expected actual : String)
  | verified (bin : String)
deriving DecidableEq, Repr

/-- Whether a verdict sets the `failed` flag. -/
def VerifyEvent.isFailure : VerifyEvent → Bool
  | .verified _ => false
  | _ => true

/-- One iteration of the `verify_installed_binaries` loop. -/
def verifyBin (hash : String → String) (fs : Fs) (vdir : Path)
    (hashes : List (String × String)) (bin : String) : VerifyEvent :=
  match assocFind bin hashes with
  | none => .noExpectedHash bin
  | some expected =>
    match fs.contentAt (vdir ++ [bin]) with
    | none => .notFound bin
    | some content =>
      let actual := hash content
      if actual == expected then .verified bin
      else .mismatch bin expected actual

/-- `verify_installed_binaries` (`src/install.rs:420`): reports a verdict for
every expected binary and fails if any verdict failed.  It reads the version
directory and never modifies the filesystem. -/
def verifyInstalledBinaries (hash : String → String) (cfg : Config) (tag : String)
    (bins : List String) (hashes : List (String × String)) (fs : Fs) :
    List VerifyEvent × Bool :=
  (bins.map (verifyBin hash fs (cfg.versionDir tag) hashes),
   (bins.map (verifyBin hash fs (cfg.versionDir tag) hashes)).any
     VerifyEvent.isFailure)

/-- Writing the extracted archive entries into the version directory
(`extract_tar_gz` / `extract_zip` called from `download_and_extract`; the
foundry release archives are flat, one top-level file per binary). -/
def extractEntries (fs : Fs) (vdir : Path) (entries : List (String × String)) : Fs :=
  entries.foldl (fun f e => f.write (vdir ++ [e.1]) (.file e.2 0o644)) fs

/-- How the post-extraction POSIX pass of `download_and_extract` rewrites one
node: a regular file directly inside the version directory gets mode
`0o755`; everything else is untouched. -/
def chmodNode (vdir p : Path) : FsNode → FsNode
  | .file c m =>
    if p.take vdir.length = vdir ∧ p.length = vdir.length + 1 then .file c 0o755
    else .file c m
  | n => n

/-- The post-extraction POSIX pass of `download_and_extract`
(`src/install.rs:359`): force mode `0o755` on every regular file directly
inside the version directory. -/
def chmodTopLevel755 (fs : Fs) (vdir : Path) : Fs :=
  { fs with nodes := fs.nodes.map (fun e => (e.1, chmodNode vdir e.1 e.2)) }

/-- The filesystem after the successful part of `download_and_extract`:
create the version directory, extract the archive entries into it, force
`0o755` on its top-level files. -/
def extractedFs (cfg : Config) (tag : String) (entries : List (String × String))
    (fs : Fs) : Fs :=
  chmodTopLevel755
    (extractEntries (fs.mkdirAll (cfg.versionDir tag)) (cfg.versionDir tag) entries)
    (cfg.versionDir tag)

/-- `download_and_extract` (`src/install.rs:327`): download the release
archive (failure is a hard error), create the version directory, extract into
it, and force `0o755` on its top-level files. -/
def downloadAndExtract (cfg : Config) (w : World) (tag : String) (fs : Fs) :
    Except Err Fs :=
  match w.archive with
  | none => .error .network
  | some entries => .ok (extractedFs cfg tag entries fs)

/-- `download_manpages` (`src/install.rs:468`): best effort — a failed
download or extraction only warns; a successful one extracts into
`man_dir`. -/
def downloadManpages (cfg : Config) (w : World) (fs : Fs) : Fs :=
  match w.man with
  | none => fs
  | some entries => extractEntries (fs.mkdirAll cfg.manDir) cfg.manDir entries

/-- `fetch_and_verify_attestation` (`src/install.rs:225`).  Result:
`.inl fs` models the `std::process::exit(0)` taken after a successful
cache-hit activation; `.inr hashes?` models returning
`Ok(None)`/`Ok(Some(hashes))` to the caller. -/
def fetchAndVerifyAttestation (codec : JsonCodec) (hash : String → String)
    (cfg : Config) (w : World) (version : String) (bins : List String) (fs : Fs) :
    Except Err (Fs ⊕ Option (List (String × String))) :=
  match w.attTxt with
  | none => .ok (.inr none)
  | some content =>
    if (firstLine content).isEmpty || containsSub (firstLine content) "Not Found" then
      .ok (.inr none)
    else
      match w.artifact with
      | none => .error .network
      | some artifactJson =>
        match parseAttestationPayload codec artifactJson with
        | .error e => .error e
        | .ok hashes =>
          if cfg.versionDir (versionToTag version) ∈ fs.dirs then
            if cacheAllMatch hash fs (cfg.versionDir (versionToTag version)) hashes bins then
              match useVersion cfg bins fs (versionToTag version) with
              | .error e => .error e
              | .ok fs' => .ok (.inl fs')
            else .ok (.inr (some hashes))
          else .ok (.inr (some hashes))

/-- The outcome of one `install_prebuilt` run.  `exited` is the
`std::process::exit(0)` of the cache short-circuit, `completed` the normal
`Ok(())`, `failed` an error return.  `downloadAttempts` counts the archive
downloads the run attempted (`download_to_file` calls: the release archive
and the manpage archive). -/
inductive Outcome where
  | exited (fs : Fs) (downloadAttempts : Nat)
  | completed (fs : Fs) (downloadAttempts : Nat)
  | failed (e : Err) (fs : Fs) (downloadAttempts : Nat)

/-- The tag computed by `install_prebuilt` for a request
(`src/install.rs:36`): the normalized version, passed through
`version_to_tag`. -/
def prebuiltTag (args : Args) : String :=
  versionToTag (normalizeVersion (args.version.getD "stable"))

/-- `install_prebuilt` (`src/install.rs:35`): normalize the version, fetch
and check the attestation unless `--force`, download and extract, verify the
extracted binaries when a bundle was obtained, fetch manpages, activate. -/
def installPrebuilt (codec : JsonCodec) (hash : String → String) (cfg : Config)
    (w : World) (args : Args) (bins : List String) (fs : Fs) : Outcome :=
  match (if !args.force then
           fetchAndVerifyAttestation codec hash cfg w
             (normalizeVersion (args.version.getD "stable")) bins fs
         else .ok (.inr none) :
         Except Err (Fs ⊕ Option (List (String × String)))) with
  | .error e => .failed e fs 0
  | .ok (.inl fs') => .exited fs' 0
  | .ok (.inr hashesOpt) =>
    match downloadAndExtract cfg w (prebuiltTag args) fs with
    | .error e => .failed e fs 1
    | .ok fs1 =>
      if (match hashesOpt with
          | some hashes =>
            (verifyInstalledBinaries hash cfg (prebuiltTag args) bins hashes fs1).2
          | none => false) then
        .failed .integrity fs1 1
      else
        match useVersion cfg bins (downloadManpages cfg w fs1) (prebuiltTag args) with
        | .error e => .failed e (downloadManpages cfg w fs1) 2
        | .ok fs3 => .completed fs3 2

/-- The per-binary body of the `install_from_local` loop
(`src/install.rs:112`): remove any existing destination, then symlink
`bin_dir/<bin>` to `<local>/target/release/<bin>`. -/
def installFromLocalStep (cfg : Config) (localPath : Path) (f : Fs) (bin : String) : Fs :=
  (if f.fileExists (cfg.binPath bin) then f.removeFile (cfg.binPath bin)
   else f).write (cfg.binPath bin)
    (.symlink (localPath ++ ["target", "release", bin]))

/-- `install_from_local` (`src/install.rs:92`), POSIX build: run
`cargo build` (non-zero exit is a hard error before any file is touched),
then for every binary remove any existing destination and create a symbolic
link from `bin_dir` to the freshly built binary (`std::os::unix::fs::symlink`,
`src/install.rs:121`). -/
def installFromLocal (buildOk : Bool) (cfg : Config) (localPath : Path)
    (bins : List String) (fs : Fs) : Except Err Fs :=
  if !buildOk then .error .build
  else .ok (bins.foldl (installFromLocalStep cfg localPath) fs)

/-- The resolved directory layout produced by `Config::new`
(`src/config.rs:29`), with paths as plain strings. -/
structure ResolvedConfig where
  foundryDir : String
  versionsDir : String
  binDir : String
  manDir : String
deriving DecidableEq, Repr

/-- `Config::new` (`src/config.rs:29`): the base directory is
`XDG_CONFIG_HOME` or, failing that, the platform home directory, and its
absence is an error *before* `FOUNDRY_DIR` is consulted; `FOUNDRY_DIR`
overrides only the root that is then derived from the base. -/
def configNew (xdgConfigHome homeDir foundryDirVar : Option String) :
    Except Err ResolvedConfig :=
  match xdgConfigHome.orElse (fun _ => homeDir) with
  | none => .error .config
  | some baseDir =>
    .ok { foundryDir := foundryDirVar.getD (baseDir ++ "/.foundry")
          versionsDir := foundryDirVar.getD (baseDir ++ "/.foundry") ++ "/versions"
          binDir := foundryDirVar.getD (baseDir ++ "/.foundry") ++ "/bin"
          manDir := foundryDirVar.getD (baseDir ++ "/.foundry") ++ "/share/man/man1" }

/-- A path component (`std::path::Component`), as decoded from a zip entry
name.  Windows path prefixes are modelled together with `rootDir` (both are
rejected identically by `enclosed_name`). -/
inductive Comp where
  | normal (s : String)
  | parentDir
  | curDir
  | rootDir
deriving DecidableEq, Repr

/-- A zip archive entry as `extract_zip` observes it: decoded name (as path
components), directory flag, file content, optional unix mode. -/
structure ZipEntry where
  name : List Comp
  isDir : Bool
  content : String
  unixMode : Option Nat
deriving DecidableEq, Repr

/-- Whether a component contains a NUL byte (rejected by `enclosed_name`). -/
def compHasNul : Comp → Bool
  | .normal s => s.data.contains (Char.ofNat 0)
  | _ => false

/-- The depth-counting loop of the zip crate's `ZipFile::enclosed_name`:
`Prefix`/`RootDir` reject, `ParentDir` is `depth.checked_sub(1)?`, `Normal`
increments, `CurDir` is skipped. -/
def enclosedDepth : Nat → List Comp → Option Nat
  | d, [] => some d
  | d, .normal _ :: rest => enclosedDepth (d + 1) rest
  | d, .parentDir :: rest =>
    match d with
    | 0 => none
    | d' + 1 => enclosedDepth d' rest
  | d, .curDir :: rest => enclosedDepth d rest
  | _, .rootDir :: _ => none

/-- `ZipFile::enclosed_name` (zip crate, called at `src/download.rs:103`):
`None` on a NUL byte or an escaping name, otherwise the *raw* decoded path. -/
def enclosedName (name : List Comp) : Option (List Comp) :=
  if name.any compHasNul then none
  else
    match enclosedDepth 0 name with
    | some _ => some name
    | none => none

/-- Semantic path resolution: apply the components to a directory stack
(`..` pops, `.` is a no-op, an absolute component resets to the root). -/
def resolveFrom : List String → List Comp → List String
  | stack, [] => stack
  | stack, .normal s :: rest => resolveFrom (stack ++ [s]) rest
  | stack, .parentDir :: rest => resolveFrom stack.dropLast rest
  | stack, .curDir :: rest => resolveFrom stack rest
  | _, .rootDir :: rest => resolveFrom [] rest

/-- The claim's notion of "stays within the destination": starting from the
destination directory, resolution never steps outside it (no absolute reset,
and `..` never pops at or above the destination). -/
def resolvesWithin (dest stack : List String) : List Comp → Bool
  | [] => true
  | .normal s :: rest => resolvesWithin dest (stack ++ [s]) rest
  | .curDir :: rest => resolvesWithin dest stack rest
  | .rootDir :: _ => false
  | .parentDir :: rest =>
    if stack.length ≤ dest.length then false
    else resolvesWithin dest stack.dropLast rest

/-- The filesystem operations `extract_zip` issues, with their raw
(unresolved) paths. -/
inductive FsAction where
  | mkdir (p : List Comp)
  | write (p : List Comp) (content : String)
  | chmod (p : List Comp) (mode : Nat)
deriving DecidableEq, Repr

/-- The raw path of an action. -/
def FsAction.path : FsAction → List Comp
  | .mkdir p => p
  | .write p _ => p
  | .chmod p _ => p

/-- The body of the `extract_zip` loop (`src/download.rs:101`) for one entry:
skip when `enclosed_name` is `None`; otherwise `outpath = dest_dir.join(path)`,
create the directory (directory entry) or the parent directory plus the file
(file entry), then apply the archive's unix mode when present. -/
def entryActions (dest : List String) (e : ZipEntry) : List FsAction :=
  match enclosedName e.name with
  | none => []
  | some path =>
    let out := dest.map Comp.normal ++ path
    (if e.isDir then [.mkdir out]
     else [.mkdir out.dropLast, .write out e.content])
      ++ (match e.unixMode with
          | some m => [.chmod out m]
          | none => [])

/-- `extract_zip` (`src/download.rs:96`) as the trace of filesystem
operations it performs on the destination (the initial
`create_dir_all(dest_dir)` itself is omitted: it targets the destination). -/
def extractZip (dest : List String) (entries : List ZipEntry) : List FsAction :=
  (entries.map (entryActions dest)).flatten

/-- Prerelease identifier of a semantic version (`semver` crate): numeric or
alphanumeric. -/
inductive PreId where
  | num (n : Nat)
  | str (s : String)
deriving DecidableEq, Repr

/-- A parsed semantic version (`semver::Version`; build metadata is validated
but, as in the crate's ordering, ignored). -/
structure SemVer where
  major : Nat
  minor : Nat
  patch : Nat
  pre : List PreId
deriving DecidableEq, Repr

/-- Split a character list on every occurrence of `c`. -/
def splitOnCharL (c : Char) : List Char → List (List Char)
  | [] => [[]]
  | x :: xs =>
    let r := splitOnCharL c xs
    if x = c then [] :: r
    else
      match r with
      | h :: t => (x :: h) :: t
      | [] => [[x]]

/-- A semver identifier character: ASCII alphanumeric or hyphen. -/
def isIdentChar (c : Char) : Bool := c.isAlphanum || c == '-'

/-- A semver numeric identifier: non-empty digits, no leading zero. -/
def parseNumericId (s : List Char) : Option Nat :=
  if s.isEmpty then none
  else if !s.all Char.isDigit then none
  else if 1 < s.length ∧ s.head? = some '0' then none
  else some (s.foldl (fun n c => n * 10 + (c.toNat - 48)) 0)

/-- A semver prerelease identifier. -/
def parsePreId (s : List Char) : Option PreId :=
  if s.isEmpty then none
  else if !s.all isIdentChar then none
  else if s.all Char.isDigit then (parseNumericId s).map PreId.num
  else some (.str (String.mk s))

/-- The `major.minor.patch` core of a semantic version. -/
def parseTriple (s : List Char) : Option (Nat × Nat × Nat) :=
  match splitOnCharL '.' s with
  | [a, b, c] => do
    let x ← parseNumericId a
    let y ← parseNumericId b
    let z ← parseNumericId c
    pure (x, y, z)
  | _ => none

/-- `semver::Version::parse`, modelled for the grammar
`major.minor.patch[-pre][+build]`. -/
def parseSemVer (s : String) : Option SemVer :=
  let (beforePlus, build) := breakAtChar '+' s.data
  let buildOk :=
    match build with
    | none => true
    | some b => (splitOnCharL '.' b).all (fun p => !p.isEmpty && p.all isIdentChar)
  if !buildOk then none
  else
    let (core, preRaw) := breakAtChar '-' beforePlus
    match parseTriple core with
    | none => none
    | some (x, y, z) =>
      match preRaw with
      | none => some ⟨x, y, z, []⟩
      | some p => ((splitOnCharL '.' p).mapM parsePreId).map (⟨x, y, z, ·⟩)

/-- Semver precedence on prerelease identifiers: numeric identifiers compare
numerically and sort below alphanumeric ones, which compare lexically. -/
def ltPreId : PreId → PreId → Bool
  | .num m, .num n => decide (m < n)
  | .num _, .str _ => true
  | .str _, .num _ => false
  | .str s, .str t => decide (s < t)

/-- Lexicographic order on prerelease identifier lists (a strict prefix is
smaller). -/
def ltPreIds : List PreId → List PreId → Bool
  | [], [] => false
  | [], _ :: _ => true
  | _ :: _, [] => false
  | a :: as, b :: bs => if a = b then ltPreIds as bs else ltPreId a b

/-- Semver precedence (`semver::Version: Ord`): compare the numeric triple,
then the prerelease (a release sorts above any prerelease of the same
triple). -/
def ltSemVer (a b : SemVer) : Bool :=
  if a.major ≠ b.major then decide (a.major < b.major)
  else if a.minor ≠ b.minor then decide (a.minor < b.minor)
  else if a.patch ≠ b.patch then decide (a.patch < b.patch)
  else
    match a.pre, b.pre with
    | [], _ => false
    | _ :: _, [] => true
    | x, y => ltPreIds x y

/-- `tag_name.trim_start_matches('v')` (`src/self_update.rs:81`): removes
*every* leading `v`. -/
def stripLeadingV (s : String) : String :=
  String.mk (s.data.dropWhile (· == 'v'))

/-- `check_for_update` (`src/self_update.rs:62`): fetch the latest-release
metadata (failure is an error), parse it as JSON and read `tag_name`
(failures are errors), strip the leading `v`s, parse the running build's
version (failure is an error), parse the remote version (failure yields
`Ok(None)`), and return the remote version only if strictly greater. -/
def checkForUpdate (currentVersion : String) (fromStr : String → Option Json)
    (fetch : Option String) : Except Err (Option String) :=
  match fetch with
  | none => .error .network
  | some response =>
    match fromStr response with
    | none => .error .parse
    | some json =>
      match (json.get "tag_name").asStr with
      | none => .error .parse
      | some tagName =>
        match parseSemVer currentVersion with
        | none => .error .parse
        | some current =>
          match parseSemVer (stripLeadingV tagName) with
          | none => .ok none
          | some remote =>
            if ltSemVer current remote then .ok (some (stripLeadingV tagName))
            else .ok none

/-! ### Filesystem lemmas -/

theorem assocFind_eraseKey_self {α β : Type} [DecidableEq α] (p : α) (l : List (α × β)) :
    assocFind p (eraseKey p l) = none := by
  induction l with
  | nil => simp [assocFind, eraseKey]
  | cons e rest ih =>
    by_cases hep : e.1 = p <;> simp [assocFind, eraseKey, hep, ih]

theorem assocFind_eraseKey {α β : Type} [DecidableEq α] (p q : α) (l : List (α × β)) :
    assocFind q (eraseKey p l) = if q = p then none else assocFind q l := by
  by_cases hqp : q = p
  · simp [hqp, assocFind_eraseKey_self]
  · simp only [hqp, if_false]
    induction l with
    | nil => simp [assocFind, eraseKey]
    | cons e rest ih =>
      simp only [eraseKey]
      by_cases hep : e.1 = p
      · rw [if_pos hep, ih, assocFind_cons,
          if_neg (fun h : e.1 = q => hqp (h ▸ hep))]
      · rw [if_neg hep]
        simp only [assocFind_cons, ih]

@[simp] theorem Fs.read_write_self (fs : Fs) (p : Path) (n : FsNode) :
    (fs.write p n).read p = some n := by
  simp [Fs.read, Fs.write, assocFind]

theorem Fs.read_write_ne (fs : Fs) (p q : Path) (n : FsNode) (h : q ≠ p) :
    (fs.write p n).read q = fs.read q := by
  simp [Fs.read, Fs.write, assocFind, Ne.symm h, assocFind_eraseKey, h]

theorem Fs.read_removeFile (fs : Fs) (p q : Path) :
    (fs.removeFile p).read q = if q = p then none else fs.read q := by
  simp [Fs.read, Fs.removeFile, assocFind_eraseKey]

@[simp] theorem Fs.write_dirs (fs : Fs) (p : Path) (n : FsNode) :
    (fs.write p n).dirs = fs.dirs := rfl

@[simp] theorem Fs.removeFile_dirs (fs : Fs) (p : Path) :
    (fs.removeFile p).dirs = fs.dirs := rfl

theorem Fs.chmod_dirs (fs : Fs) (p : Path) (m : Nat) :
    (fs.chmod p m).dirs = fs.dirs := by
  unfold Fs.chmod
  cases h : fs.read p with
  | none => rfl
  | some n => cases n <;> rfl

theorem Fs.chmod_read_ne (fs : Fs) (p q : Path) (m : Nat) (h : q ≠ p) :
    (fs.chmod p m).read q = fs.read q := by
  unfold Fs.chmod
  cases hr : fs.read p with
  | none => rfl
  | some n =>
    cases n with
    | file c mo => exact fs.read_write_ne p q _ h
    | symlink t => rfl

theorem Fs.chmod_read_file (fs : Fs) (p : Path) (c : String) (m m' : Nat)
    (h : fs.read p = some (.file c m)) :
    (fs.chmod p m').read p = some (.file c m') := by
  unfold Fs.chmod
  rw [h]
  exact fs.read_write_self p _

theorem Fs.mem_dirs_mkdirAll (fs : Fs) (p q : Path) (h : q ∈ fs.dirs) :
    q ∈ (fs.mkdirAll p).dirs := by
  simp [Fs.mkdirAll]
  exact Or.inr h

theorem Fs.self_mem_dirs_mkdirAll (fs : Fs) (p : Path) :
    p ∈ (fs.mkdirAll p).dirs := by
  simp [Fs.mkdirAll, List.mem_inits]

@[simp] theorem Fs.mkdirAll_read (fs : Fs) (p q : Path) :
    (fs.mkdirAll p).read q = fs.read q := rfl

theorem Fs.statFile_of_read_file (fs : Fs) (p : Path) (c : String) (m : Nat)
    (h : fs.read p = some (.file c m)) : fs.statFile p = some (c, m) := by
  simp [Fs.statFile, h]

theorem Fs.statFile_of_read_none (fs : Fs) (p : Path)
    (h : fs.read p = none) : fs.statFile p = none := by
  simp [Fs.statFile, h]

theorem Fs.contentAt_of_read_file (fs : Fs) (p : Path) (c : String) (m : Nat)
    (h : fs.read p = some (.file c m)) : fs.contentAt p = some c := by
  simp [Fs.contentAt, fs.statFile_of_read_file p c m h]

/-! ### Path disjointness: the three directory families have different
lengths below `foundry_dir`, so they can never collide. -/

theorem versionDirFile_ne_binPath (cfg : Config) (tag x b : String) :
    cfg.versionDir tag ++ [x] ≠ cfg.binPath b := by
  intro h
  have := congrArg List.length h
  simp [Config.versionDir, Config.versionsDir, Config.binPath, Config.binDir] at this

theorem versionDirFile_ne_manDirFile (cfg : Config) (tag x m : String) :
    cfg.versionDir tag ++ [x] ≠ cfg.manDir ++ [m] := by
  intro h
  have := congrArg List.length h
  simp [Config.versionDir, Config.versionsDir, Config.manDir] at this

theorem binPath_inj (cfg : Config) (b b' : String) (h : cfg.binPath b = cfg.binPath b') :
    b = b' := by
  simp [Config.binPath, Config.binDir] at h
  exact h

theorem versionDirFile_inj (cfg : Config) (tag x x' : String)
    (h : cfg.versionDir tag ++ [x] = cfg.versionDir tag ++ [x']) : x = x' := by
  simp at h
  exact h

/-! ### Lemmas about the extraction and activation passes -/

theorem assocFind_map_val {α β : Type} [DecidableEq α] (g : α → β → β) (q : α)
    (l : List (α × β)) :
    assocFind q (l.map (fun e => (e.1, g e.1 e.2))) = (assocFind q l).map (g q) := by
  induction l with
  | nil => rfl
  | cons e rest ih =>
    by_cases h : e.1 = q <;> simp [assocFind, h, ih]

theorem chmodTopLevel755_read (fs : Fs) (vdir q : Path) :
    (chmodTopLevel755 fs vdir).read q = (fs.read q).map (chmodNode vdir q) := by
  simp [chmodTopLevel755, Fs.read, assocFind_map_val]

@[simp] theorem chmodTopLevel755_dirs (fs : Fs) (vdir : Path) :
    (chmodTopLevel755 fs vdir).dirs = fs.dirs := rfl

theorem chmodNode_topFile (vdir : Path) (x c : String) (m : Nat) :
    chmodNode vdir (vdir ++ [x]) (.file c m) = .file c 0o755 := by
  simp [chmodNode]

@[simp] theorem extractEntries_nil (fs : Fs) (vdir : Path) :
    extractEntries fs vdir [] = fs := rfl

theorem extractEntries_cons (fs : Fs) (vdir : Path) (e : String × String)
    (rest : List (String × String)) :
    extractEntries fs vdir (e :: rest) =
      extractEntries (fs.write (vdir ++ [e.1]) (.file e.2 0o644)) vdir rest := rfl

@[simp] theorem extractEntries_dirs (fs : Fs) (vdir : Path)
    (entries : List (String × String)) :
    (extractEntries fs vdir entries).dirs = fs.dirs := by
  induction entries generalizing fs with
  | nil => rfl
  | cons e rest ih => rw [extractEntries_cons, ih, Fs.write_dirs]

theorem extractEntries_read_notin (fs : Fs) (vdir q : Path)
    (entries : List (String × String)) (h : ∀ e ∈ entries, vdir ++ [e.1] ≠ q) :
    (extractEntries fs vdir entries).read q = fs.read q := by
  induction entries generalizing fs with
  | nil => rfl
  | cons e rest ih =>
    rw [extractEntries_cons, ih _ (fun e' he' => h e' (List.mem_cons_of_mem _ he')),
      Fs.read_write_ne _ _ _ _ (fun hq => h e (List.mem_cons_self _ _) hq.symm)]

theorem extractEntries_read_of_name_mem (fs : Fs) (vdir : Path)
    (entries : List (String × String)) (n : String)
    (h : n ∈ entries.map Prod.fst) :
    ∃ c, (extractEntries fs vdir entries).read (vdir ++ [n]) =
      some (.file c 0o644) ∧ (n, c) ∈ entries := by
  induction entries generalizing fs with
  | nil => simp at h
  | cons e rest ih =>
    by_cases hr : n ∈ rest.map Prod.fst
    · obtain ⟨c, hc, hm⟩ := ih _ hr
      exact ⟨c, by rw [extractEntries_cons]; exact hc, List.mem_cons_of_mem _ hm⟩
    · have hn : n = e.1 := by
        rcases List.mem_map.mp h with ⟨e', he', hfst⟩
        rcases List.mem_cons.mp he' with h1 | h1
        · rw [h1] at hfst; exact hfst.symm
        · exact absurd (List.mem_map.mpr ⟨e', h1, hfst⟩) hr
      refine ⟨e.2, ?_, by rw [hn]; exact List.mem_cons_self _ _⟩
      rw [extractEntries_cons,
        extractEntries_read_notin _ _ _ _ (fun e' he' hq => ?_), hn,
        Fs.read_write_self]
      have : e'.1 = n := by simpa using hq
      exact hr (List.mem_map.mpr ⟨e', he', this⟩)

theorem extractEntries_read_of_mem_nodup (fs : Fs) (vdir : Path)
    (entries : List (String × String)) (n c : String)
    (hnodup : (entries.map Prod.fst).Nodup) (hmem : (n, c) ∈ entries) :
    (extractEntries fs vdir entries).read (vdir ++ [n]) = some (.file c 0o644) := by
  induction entries generalizing fs with
  | nil => simp at hmem
  | cons e rest ih =>
    rcases List.mem_cons.mp hmem with h1 | h1
    · subst h1
      rw [extractEntries_cons,
        extractEntries_read_notin _ _ _ _ (fun e' he' hq => ?_),
        Fs.read_write_self]
      have hfst : e'.1 = n := by simpa using hq
      exact (List.nodup_cons.mp hnodup).1 (List.mem_map.mpr ⟨e', he', hfst⟩)
    · rw [extractEntries_cons]
      exact ih _ (List.nodup_cons.mp hnodup).2 h1

theorem downloadManpages_read_vdirFile (cfg : Config) (w : World) (fs : Fs)
    (tag x : String) :
    (downloadManpages cfg w fs).read (cfg.versionDir tag ++ [x]) =
      fs.read (cfg.versionDir tag ++ [x]) := by
  unfold downloadManpages
  cases w.man with
  | none => rfl
  | some entries =>
    rw [extractEntries_read_notin _ _ _ _
      (fun e _ hq => versionDirFile_ne_manDirFile cfg tag x e.1 hq.symm),
      Fs.mkdirAll_read]

theorem downloadManpages_mem_dirs (cfg : Config) (w : World) (fs : Fs) (q : Path)
    (h : q ∈ fs.dirs) : q ∈ (downloadManpages cfg w fs).dirs := by
  unfold downloadManpages
  cases w.man with
  | none => exact h
  | some entries =>
    rw [extractEntries_dirs]
    exact Fs.mem_dirs_mkdirAll _ _ _ h

theorem useVersionStep_read (cfg : Config) (tag : String) (fs : Fs) (bin : String)
    (q : Path) :
    (useVersionStep cfg tag fs bin).read q =
      match fs.statFile (cfg.versionDir tag ++ [bin]) with
      | none => fs.read q
      | some (c, _) =>
        if q = cfg.binPath bin then some (.file c 0o755) else fs.read q := by
  unfold useVersionStep
  cases h : fs.statFile (cfg.versionDir tag ++ [bin]) with
  | none => rfl
  | some cm =>
    obtain ⟨c, m⟩ := cm
    simp only
    by_cases hq : q = cfg.binPath bin
    · subst hq
      rw [if_pos rfl]
      exact Fs.chmod_read_file _ _ _ _ _ (Fs.read_write_self _ _ _)
    · rw [if_neg hq, Fs.chmod_read_ne _ _ _ _ hq, Fs.read_write_ne _ _ _ _ hq]
      cases hd : fs.fileExists (cfg.binPath bin) <;>
        simp [hd, Fs.read_removeFile, hq]

theorem useVersionStep_dirs (cfg : Config) (tag : String) (fs : Fs) (bin : String) :
    (useVersionStep cfg tag fs bin).dirs = fs.dirs := by
  unfold useVersionStep
  cases h : fs.statFile (cfg.versionDir tag ++ [bin]) with
  | none => rfl
  | some cm =>
    obtain ⟨c, m⟩ := cm
    simp only [Fs.chmod_dirs, Fs.write_dirs]
    cases hd : fs.fileExists (cfg.binPath bin) <;> simp [hd]

theorem useVersionStep_read_vdirFile (cfg : Config) (tag : String) (fs : Fs)
    (b : String) (tag' x : String) :
    (useVersionStep cfg tag fs b).read (cfg.versionDir tag' ++ [x]) =
      fs.read (cfg.versionDir tag' ++ [x]) := by
  rw [useVersionStep_read]
  cases h : fs.statFile (cfg.versionDir tag ++ [b]) with
  | none => rfl
  | some cm =>
    obtain ⟨c, m⟩ := cm
    exact if_neg (versionDirFile_ne_binPath cfg tag' x b)

theorem useVersionFold_dirs (cfg : Config) (tag : String) (bins : List String)
    (fs : Fs) : (bins.foldl (useVersionStep cfg tag) fs).dirs = fs.dirs := by
  induction bins generalizing fs with
  | nil => rfl
  | cons b rest ih => rw [List.foldl_cons, ih, useVersionStep_dirs]

theorem useVersionFold_read_vdirFile (cfg : Config) (tag : String)
    (bins : List String) (fs : Fs) (tag' x : String) :
    (bins.foldl (useVersionStep cfg tag) fs).read (cfg.versionDir tag' ++ [x]) =
      fs.read (cfg.versionDir tag' ++ [x]) := by
  induction bins generalizing fs with
  | nil => rfl
  | cons b rest ih => rw [List.foldl_cons, ih, useVersionStep_read_vdirFile]

theorem useVersionFold_read_notin (cfg : Config) (tag : String)
    (bins : List String) (fs : Fs) (bin : String) (h : bin ∉ bins) :
    (bins.foldl (useVersionStep cfg tag) fs).read (cfg.binPath bin) =
      fs.read (cfg.binPath bin) := by
  induction bins generalizing fs with
  | nil => rfl
  | cons b rest ih =>
    rw [List.foldl_cons, ih _ (fun hm => h (List.mem_cons_of_mem _ hm)),
      useVersionStep_read]
    cases hs : fs.statFile (cfg.versionDir tag ++ [b]) with
    | none => rfl
    | some cm =>
      obtain ⟨c, m⟩ := cm
      exact if_neg (fun hq => h (List.mem_cons.mpr (Or.inl (binPath_inj cfg bin b hq))))

theorem useVersionFold_read_absent (cfg : Config) (tag : String)
    (bins : List String) (fs : Fs) (bin : String)
    (h : fs.read (cfg.versionDir tag ++ [bin]) = none) :
    (bins.foldl (useVersionStep cfg tag) fs).read (cfg.binPath bin) =
      fs.read (cfg.binPath bin) := by
  induction bins generalizing fs with
  | nil => rfl
  | cons b rest ih =>
    rw [List.foldl_cons]
    have hsrc : (useVersionStep cfg tag fs b).read (cfg.versionDir tag ++ [bin]) = none := by
      rw [useVersionStep_read_vdirFile]; exact h
    rw [ih _ hsrc]
    by_cases hb : b = bin
    · subst hb
      rw [useVersionStep_read, Fs.statFile_of_read_none _ _ h]
    · rw [useVersionStep_read]
      cases hs : fs.statFile (cfg.versionDir tag ++ [b]) with
      | none => rfl
      | some cm =>
        obtain ⟨c, m⟩ := cm
        exact if_neg (fun hq => hb (binPath_inj cfg bin b hq).symm)

theorem useVersionFold_identity_of_all_absent (cfg : Config) (tag : String)
    (bins : List String) (fs : Fs)
    (h : ∀ bin ∈ bins, fs.read (cfg.versionDir tag ++ [bin]) = none) :
    bins.foldl (useVersionStep cfg tag) fs = fs := by
  induction bins with
  | nil => rfl
  | cons b rest ih =>
    rw [List.foldl_cons]
    have hb : useVersionStep cfg tag fs b = fs := by
      unfold useVersionStep
      rw [Fs.statFile_of_read_none _ _ (h b (List.mem_cons_self _ _))]
    rw [hb]
    exact ih (fun bin hm => h bin (List.mem_cons_of_mem _ hm))

theorem useVersionFold_read_copied (cfg : Config) (tag : String)
    (bins : List String) (fs : Fs) (bin c : String) (m : Nat)
    (hmem : bin ∈ bins) (hsrc : fs.read (cfg.versionDir tag ++ [bin]) = some (.file c m)) :
    (bins.foldl (useVersionStep cfg tag) fs).read (cfg.binPath bin) =
      some (.file c 0o755) := by
  induction bins generalizing fs with
  | nil => simp at hmem
  | cons b rest ih =>
    rw [List.foldl_cons]
    by_cases hr : bin ∈ rest
    · exact ih _ hr (by rw [useVersionStep_read_vdirFile]; exact hsrc)
    · have hb : b = bin := by
        rcases List.mem_cons.mp hmem with h1 | h1
        · exact h1.symm
        · exact absurd h1 hr
      subst hb
      rw [useVersionFold_read_notin _ _ _ _ _ hr, useVersionStep_read,
        Fs.statFile_of_read_file _ _ _ _ hsrc]
      simp

theorem Fs.read_removeWrite (f : Fs) (dest q : Path) (n : FsNode) :
    ((if f.fileExists dest then f.removeFile dest else f).write dest n).read q =
      if q = dest then some n else f.read q := by
  by_cases hq : q = dest
  · subst hq
    cases hd : f.fileExists q <;> simp [hd, Fs.read_write_self]
  · cases hd : f.fileExists dest <;>
      simp [hd, Fs.read_write_ne _ _ _ _ hq, Fs.read_removeFile, hq]

theorem installFromLocalStep_read (cfg : Config) (localPath : Path) (f : Fs)
    (bin : String) (q : Path) :
    (installFromLocalStep cfg localPath f bin).read q =
      if q = cfg.binPath bin then
        some (.symlink (localPath ++ ["target", "release", bin]))
      else f.read q := by
  unfold installFromLocalStep
  exact Fs.read_removeWrite f (cfg.binPath bin) q _

theorem installFromLocalFold_read_notin (cfg : Config) (localPath : Path)
    (bins : List String) (fs : Fs) (bin : String) (h : bin ∉ bins) :
    (bins.foldl (installFromLocalStep cfg localPath) fs).read (cfg.binPath bin) =
      fs.read (cfg.binPath bin) := by
  induction bins generalizing fs with
  | nil => rfl
  | cons b rest ih =>
    rw [List.foldl_cons, ih _ (fun hm => h (List.mem_cons_of_mem _ hm)),
      installFromLocalStep_read,
      if_neg (fun hq => h (List.mem_cons.mpr (Or.inl (binPath_inj cfg bin b hq))))]

theorem installFromLocalFold_read_mem (cfg : Config) (localPath : Path)
    (bins : List String) (fs : Fs) (bin : String) (h : bin ∈ bins) :
    (bins.foldl (installFromLocalStep cfg localPath) fs).read (cfg.binPath bin) =
      some (.symlink (localPath ++ ["target", "release", bin])) := by
  induction bins generalizing fs with
  | nil => simp at h
  | cons b rest ih =>
    rw [List.foldl_cons]
    by_cases hr : bin ∈ rest
    · exact ih _ hr
    · have hb : b = bin := by
        rcases List.mem_cons.mp h with h1 | h1
        · exact h1.symm
        · exact absurd h1 hr
      subst hb
      rw [installFromLocalFold_read_notin _ _ _ _ _ hr, installFromLocalStep_read,
        if_pos rfl]

theorem useVersion_ok (cfg : Config) (bins : List String) (fs : Fs) (tag : String)
    (h : cfg.versionDir tag ∈ fs.dirs) :
    useVersion cfg bins fs tag = .ok (bins.foldl (useVersionStep cfg tag) fs) := by
  unfold useVersion
  rw [if_pos h]

theorem cacheAllMatch_of_matches (hash : String → String) (fs : Fs) (vdir : Path)
    (hashes : List (String × String)) (bins : List String)
    (h : ∀ bin ∈ bins, ∃ content, fs.contentAt (vdir ++ [bin]) = some content ∧
      assocFind bin hashes = some (hash content)) :
    cacheAllMatch hash fs vdir hashes bins = true := by
  rw [cacheAllMatch, List.all_eq_true]
  intro bin hb
  obtain ⟨content, hc, hh⟩ := h bin hb
  simp [cacheBinMatches, hh, hc]

/-! ### Lemmas about the prebuilt orchestration -/

theorem extractedFs_self_mem_dirs (cfg : Config) (tag : String)
    (entries : List (String × String)) (fs : Fs) :
    cfg.versionDir tag ∈ (extractedFs cfg tag entries fs).dirs := by
  unfold extractedFs
  rw [chmodTopLevel755_dirs, extractEntries_dirs]
  exact Fs.self_mem_dirs_mkdirAll fs _

theorem extractedFs_read_of_name_mem (cfg : Config) (tag : String)
    (entries : List (String × String)) (fs : Fs) (n : String)
    (h : n ∈ entries.map Prod.fst) :
    ∃ c, (extractedFs cfg tag entries fs).read (cfg.versionDir tag ++ [n]) =
      some (.file c 0o755) ∧ (n, c) ∈ entries := by
  obtain ⟨c, hc, hm⟩ :=
    extractEntries_read_of_name_mem (fs.mkdirAll (cfg.versionDir tag))
      (cfg.versionDir tag) entries n h
  refine ⟨c, ?_, hm⟩
  unfold extractedFs
  rw [chmodTopLevel755_read, hc]
  simp [chmodNode_topFile]

theorem extractedFs_read_of_mem_nodup (cfg : Config) (tag : String)
    (entries : List (String × String)) (fs : Fs) (n c : String)
    (hnodup : (entries.map Prod.fst).Nodup) (hmem : (n, c) ∈ entries) :
    (extractedFs cfg tag entries fs).read (cfg.versionDir tag ++ [n]) =
      some (.file c 0o755) := by
  unfold extractedFs
  rw [chmodTopLevel755_read,
    extractEntries_read_of_mem_nodup _ _ _ _ _ hnodup hmem]
  simp [chmodNode_topFile]

theorem fetchAndVerifyAttestation_with_bundle (codec : JsonCodec)
    (hash : String → String) (cfg : Config) (w : World) (version : String)
    (bins : List String) (fs : Fs) (body art : String)
    (hashes : List (String × String))
    (htxt : w.attTxt = some body) (h1 : (firstLine body).isEmpty = false)
    (h2 : containsSub (firstLine body) "Not Found" = false)
    (hart : w.artifact = some art)
    (hparse : parseAttestationPayload codec art = .ok hashes) :
    fetchAndVerifyAttestation codec hash cfg w version bins fs =
      if cfg.versionDir (versionToTag version) ∈ fs.dirs then
        if cacheAllMatch hash fs (cfg.versionDir (versionToTag version)) hashes bins then
          match useVersion cfg bins fs (versionToTag version) with
          | .error e => .error e
          | .ok fs' => .ok (.inl fs')
        else .ok (.inr (some hashes))
      else .ok (.inr (some hashes)) := by
  unfold fetchAndVerifyAttestation
  rw [htxt]
  simp only [h1, h2, Bool.or_self, Bool.false_eq_true, if_false, hart, hparse]

theorem installPrebuilt_cache_hit (codec : JsonCodec) (hash : String → String)
    (cfg : Config) (w : World) (args : Args) (bins : List String) (fs : Fs)
    (body art : String) (hashes : List (String × String))
    (hforce : args.force = false)
    (htxt : w.attTxt = some body) (h1 : (firstLine body).isEmpty = false)
    (h2 : containsSub (firstLine body) "Not Found" = false)
    (hart : w.artifact = some art)
    (hparse : parseAttestationPayload codec art = .ok hashes)
    (hdir : cfg.versionDir (prebuiltTag args) ∈ fs.dirs)
    (hmatch : ∀ bin ∈ bins, ∃ content,
      fs.contentAt (cfg.versionDir (prebuiltTag args) ++ [bin]) = some content ∧
      assocFind bin hashes = some (hash content)) :
    installPrebuilt codec hash cfg w args bins fs =
      .exited (bins.foldl (useVersionStep cfg (prebuiltTag args)) fs) 0 := by
  unfold prebuiltTag at hdir hmatch ⊢
  unfold installPrebuilt prebuiltTag
  rw [hforce]
  simp only [Bool.not_false, reduceIte]
  rw [fetchAndVerifyAttestation_with_bundle codec hash cfg w _ bins fs body art
      hashes htxt h1 h2 hart hparse,
    if_pos hdir,
    if_pos (cacheAllMatch_of_matches hash fs _ hashes bins hmatch),
    useVersion_ok cfg bins fs _ hdir]

theorem installPrebuilt_fresh (codec : JsonCodec) (hash : String → String)
    (cfg : Config) (w : World) (args : Args) (bins : List String) (fs : Fs)
    (body art : String) (hashes : List (String × String))
    (entries : List (String × String))
    (hforce : args.force = false)
    (htxt : w.attTxt = some body) (h1 : (firstLine body).isEmpty = false)
    (h2 : containsSub (firstLine body) "Not Found" = false)
    (hart : w.artifact = some art)
    (hparse : parseAttestationPayload codec art = .ok hashes)
    (hnodir : cfg.versionDir (prebuiltTag args) ∉ fs.dirs)
    (harch : w.archive = some entries) :
    installPrebuilt codec hash cfg w args bins fs =
      if (verifyInstalledBinaries hash cfg (prebuiltTag args) bins hashes
            (extractedFs cfg (prebuiltTag args) entries fs)).2 then
        .failed .integrity (extractedFs cfg (prebuiltTag args) entries fs) 1
      else
        .completed
          (bins.foldl (useVersionStep cfg (prebuiltTag args))
            (downloadManpages cfg w (extractedFs cfg (prebuiltTag args) entries fs)))
          2 := by
  have hdir2 : Config.versionDir cfg (prebuiltTag args) ∈
      (downloadManpages cfg w (extractedFs cfg (prebuiltTag args) entries fs)).dirs :=
    downloadManpages_mem_dirs cfg w _ _ (extractedFs_self_mem_dirs cfg _ entries fs)
  unfold prebuiltTag at hnodir hdir2 ⊢
  unfold installPrebuilt prebuiltTag
  rw [hforce]
  simp only [Bool.not_false, reduceIte]
  rw [fetchAndVerifyAttestation_with_bundle codec hash cfg w _ bins fs body art
      hashes htxt h1 h2 hart hparse,
    if_neg hnodir]
  unfold downloadAndExtract
  rw [harch]
  dsimp only
  rw [useVersion_ok cfg bins _ _ hdir2]

theorem any_map_comp {α β : Type} (f : α → β) (p : β → Bool) (l : List α) :
    (l.map f).any p = l.any (fun x => p (f x)) := by
  induction l with
  | nil => rfl
  | cons x xs ih => simp [List.any_cons, ih]

theorem verifyBin_isFailure_iff (hash : String → String) (fs : Fs) (vdir : Path)
    (hashes : List (String × String)) (bin : String) :
    (verifyBin hash fs vdir hashes bin).isFailure = true ↔
      (assocFind bin hashes = none ∨
       (∃ e, assocFind bin hashes = some e ∧ fs.contentAt (vdir ++ [bin]) = none) ∨
       (∃ e c, assocFind bin hashes = some e ∧
         fs.contentAt (vdir ++ [bin]) = some c ∧ hash c ≠ e)) := by
  unfold verifyBin
  cases he : assocFind bin hashes with
  | none => simp [VerifyEvent.isFailure]
  | some expected =>
    cases hcnt : fs.contentAt (vdir ++ [bin]) with
    | none => simp [VerifyEvent.isFailure]
    | some c =>
      by_cases heq : hash c = expected
      · simp [heq, VerifyEvent.isFailure]
      · simp only [show (hash c == expected) = false from beq_eq_false_iff_ne.mpr heq,
          if_false]
        simp [VerifyEvent.isFailure, heq]

theorem verifyInstalledBinaries_failed_iff (hash : String → String) (cfg : Config)
    (tag : String) (bins : List String) (hashes : List (String × String)) (fs : Fs) :
    (verifyInstalledBinaries hash cfg tag bins hashes fs).2 = true ↔
      ∃ bin ∈ bins,
        (assocFind bin hashes = none ∨
         (∃ e, assocFind bin hashes = some e ∧
           fs.contentAt (cfg.versionDir tag ++ [bin]) = none) ∨
         (∃ e c, assocFind bin hashes = some e ∧
           fs.contentAt (cfg.versionDir tag ++ [bin]) = some c ∧ hash c ≠ e)) := by
  unfold verifyInstalledBinaries
  rw [any_map_comp]
  simp only [List.any_eq_true]
  constructor
  · rintro ⟨bin, hb, hfail⟩
    exact ⟨bin, hb, (verifyBin_isFailure_iff hash fs _ hashes bin).mp hfail⟩
  · rintro ⟨bin, hb, hcond⟩
    exact ⟨bin, hb, (verifyBin_isFailure_iff hash fs _ hashes bin).mpr hcond⟩

theorem verifyInstalledBinaries_passed (hash : String → String) (cfg : Config)
    (tag : String) (bins : List String) (hashes : List (String × String)) (fs : Fs)
    (h : (verifyInstalledBinaries hash cfg tag bins hashes fs).2 = false)
    (bin : String) (hb : bin ∈ bins) :
    ∃ e c, assocFind bin hashes = some e ∧
      fs.contentAt (cfg.versionDir tag ++ [bin]) = some c ∧ hash c = e := by
  unfold verifyInstalledBinaries at h
  rw [any_map_comp] at h
  simp only [List.any_eq_false] at h
  have hfail := h bin hb
  revert hfail
  unfold verifyBin
  cases he : assocFind bin hashes with
  | none => simp [VerifyEvent.isFailure]
  | some expected =>
    cases hcnt : fs.contentAt (cfg.versionDir tag ++ [bin]) with
    | none => simp [VerifyEvent.isFailure]
    | some c =>
      by_cases heq : hash c = expected
      · intro _
        exact ⟨expected, c, rfl, rfl, heq⟩
      · simp only [show (hash c == expected) = false from beq_eq_false_iff_ne.mpr heq,
          if_false]
        simp [VerifyEvent.isFailure]

/-! ## The claims -/

/-- C5: version normalization: an input beginning with "nightly" yields
exactly "nightly"; otherwise an input whose first character is an ASCII
digit gains a "v"; otherwise the input passes through unchanged — and the
three spec examples hold. -/
theorem c5_normalize_version (s : String) :
    (strStartsWith s "nightly" = true → normalizeVersion s = "nightly") ∧
    (strStartsWith s "nightly" = false →
      ∀ c cs, s.data = c :: cs → c.isDigit = true → normalizeVersion s = "v" ++ s) ∧
    (strStartsWith s "nightly" = false →
      (∀ c cs, s.data = c :: cs → c.isDigit = false) → normalizeVersion s = s) ∧
    normalizeVersion "nightly-2024-01-01" = "nightly" ∧
    normalizeVersion "1.5.0" = "v1.5.0" ∧
    normalizeVersion "stable" = "stable" := by
  refine ⟨?_, ?_, ?_, by decide, by decide, by decide⟩
  · intro h
    simp [normalizeVersion, h]
  · intro h c cs hd hdig
    simp [normalizeVersion, h, hd, hdig]
  · intro h hall
    unfold normalizeVersion
    rw [if_neg (by simp [h]), if_neg ?_]
    cases hd : s.data with
    | nil => simp [hd]
    | cons c cs => simp [hd, hall c cs hd]

/-- C5 witness: the digit branch applied at the concrete input "1.5.0". -/
theorem c5_normalize_version_witness :
    strStartsWith "1.5.0" "nightly" = false ∧
    "1.5.0".data = '1' :: ".5.0".data ∧
    normalizeVersion "1.5.0" = "v" ++ "1.5.0" :=
  ⟨by decide, by decide,
    (c5_normalize_version "1.5.0").2.1 (by decide) '1' ".5.0".data (by decide)
      (by decide)⟩

/-- C7 counterexample: with the root-directory override (`FOUNDRY_DIR`) set
but neither `XDG_CONFIG_HOME` nor a platform home directory available,
`Config::new` still fails — refuting "whenever the override variable is set,
resolution succeeds regardless of whether a home directory exists". -/
theorem c7_counterexample :
    configNew none none (some "/custom/root") = .error .config := rfl

/-- C7 amended: `Config::new` fails exactly when both the config-home
override (`XDG_CONFIG_HOME`) and the platform home directory are absent; the
root-directory override (`FOUNDRY_DIR`) does not prevent that failure,
because the base directory is resolved first — but when resolution succeeds
it does determine the root directory. -/
theorem c7_config_resolution (xdg home fdir : Option String) :
    ((∃ c, configNew xdg home fdir = .ok c) ↔
      (xdg.isSome = true ∨ home.isSome = true)) ∧
    (∀ d c, fdir = some d → configNew xdg home fdir = .ok c →
      c.foundryDir = d) := by
  constructor
  · cases xdg with
    | some x => simp [configNew, Option.orElse]
    | none =>
      cases home with
      | some h => simp [configNew, Option.orElse]
      | none => simp [configNew, Option.orElse]
  · intro d c hd hc
    subst hd
    cases xdg with
    | some x =>
      simp [configNew, Option.orElse] at hc
      rw [← hc]
    | none =>
      cases home with
      | some h =>
        simp [configNew, Option.orElse] at hc
        rw [← hc]
      | none => simp [configNew, Option.orElse] at hc

/-- C7 witness: at a concrete input with the config-home override present
and the root override set, resolution succeeds and the root is the
override. -/
theorem c7_config_resolution_witness :
    (some "/custom" : Option String) = some "/custom" ∧
    configNew (some "/xdg") none (some "/custom") =
      .ok ⟨"/custom", "/custom/versions", "/custom/bin", "/custom/share/man/man1"⟩ ∧
    ResolvedConfig.foundryDir
      ⟨"/custom", "/custom/versions", "/custom/bin", "/custom/share/man/man1"⟩ =
      "/custom" :=
  ⟨rfl, rfl,
    (c7_config_resolution (some "/xdg") none (some "/custom")).2 "/custom" _ rfl rfl⟩

/-- C8 counterexample: on the tempo network with requested version "1.0.0"
the archive requested is `foundry_nightly_linux_amd64.tar.gz` — the version
component is neither the normalized requested version ("v1.0.0") nor the raw
one ("1.0.0"), refuting the claim for the alternate network. -/
theorem c8_counterexample :
    tempoPrebuiltArchiveName ⟨some "1.0.0", false⟩ ⟨.linux, .amd64⟩ =
      "foundry_nightly_linux_amd64.tar.gz" ∧
    tempoPrebuiltArchiveName ⟨some "1.0.0", false⟩ ⟨.linux, .amd64⟩ ≠
      "foundry_" ++ normalizeVersion "1.0.0" ++ "_linux_amd64.tar.gz" ∧
    tempoPrebuiltArchiveName ⟨some "1.0.0", false⟩ ⟨.linux, .amd64⟩ ≠
      "foundry_" ++ "1.0.0" ++ "_linux_amd64.tar.gz" := by
  refine ⟨by decide, by decide, by decide⟩

/-- C8 amended: on the primary network the requested archive is
`foundry_<normalized version>_<platform>_<arch>.<ext>` with
`ext = zip` exactly for win32 and `tar.gz` otherwise, and platform/arch
range over `{linux, alpine, darwin, win32}` / `{amd64, arm64}`; on the tempo
network the version component is always the literal "nightly", regardless of
the requested version. -/
theorem c8_archive_naming :
    (∀ args t, prebuiltArchiveName args t =
      "foundry_" ++ normalizeVersion (args.version.getD "stable") ++ "_" ++
        t.platform.asStr ++ "_" ++ t.arch.asStr ++ "." ++
        (if t.platform = .win32 then "zip" else "tar.gz")) ∧
    (∀ args t, tempoPrebuiltArchiveName args t =
      "foundry_nightly_" ++ t.platform.asStr ++ "_" ++ t.arch.asStr ++ "." ++
        (if t.platform = .win32 then "zip" else "tar.gz")) ∧
    (∀ p : Platform, p.asStr ∈ ["linux", "alpine", "darwin", "win32"]) ∧
    (∀ a : Arch, a.asStr ∈ ["amd64", "arm64"]) := by
  refine ⟨?_, ?_, ?_, ?_⟩
  · intro args t
    obtain ⟨p, a⟩ := t
    cases p <;> rfl
  · intro args t
    obtain ⟨p, a⟩ := t
    cases p <;> rfl
  · intro p
    cases p <;> simp [Platform.asStr]
  · intro a
    cases a <;> simp [Arch.asStr]

/-- C10: activating a tag whose version directory exists succeeds, every
expected binary that is absent from the version directory leaves the file at
`binDir/<name>` byte-for-byte unchanged, and if every binary is absent the
whole filesystem (in particular the bin directory) is unchanged. -/
theorem c10_use_version_skips_absent (cfg : Config) (bins : List String) (fs : Fs)
    (tag : String) (hdir : cfg.versionDir tag ∈ fs.dirs) :
    ∃ fs', useVersion cfg bins fs tag = .ok fs' ∧
      (∀ bin ∈ bins, fs.read (cfg.versionDir tag ++ [bin]) = none →
        fs'.read (cfg.binPath bin) = fs.read (cfg.binPath bin)) ∧
      ((∀ bin ∈ bins, fs.read (cfg.versionDir tag ++ [bin]) = none) → fs' = fs) := by
  refine ⟨bins.foldl (useVersionStep cfg tag) fs,
    useVersion_ok cfg bins fs tag hdir, ?_, ?_⟩
  · intro bin _ habs
    exact useVersionFold_read_absent cfg tag bins fs bin habs
  · intro hall
    exact useVersionFold_identity_of_all_absent cfg tag bins fs hall

/-- C10 witness: activating an existing, empty version directory while an
unrelated file sits in the bin directory: activation succeeds and the
filesystem is untouched. -/
theorem c10_use_version_skips_absent_witness :
    Config.versionDir ⟨["r"]⟩ "v1" ∈
      (Fs.mk [(Config.binPath ⟨["r"]⟩ "forge", .file "old" 7)]
        [Config.versionDir ⟨["r"]⟩ "v1"]).dirs ∧
    ∃ fs', useVersion ⟨["r"]⟩ ["forge"]
        (Fs.mk [(Config.binPath ⟨["r"]⟩ "forge", .file "old" 7)]
          [Config.versionDir ⟨["r"]⟩ "v1"]) "v1" = .ok fs' ∧
      (∀ bin ∈ ["forge"],
        (Fs.mk [(Config.binPath ⟨["r"]⟩ "forge", .file "old" 7)]
          [Config.versionDir ⟨["r"]⟩ "v1"]).read
            (Config.versionDir ⟨["r"]⟩ "v1" ++ [bin]) = none →
        fs'.read (Config.binPath ⟨["r"]⟩ bin) =
          (Fs.mk [(Config.binPath ⟨["r"]⟩ "forge", .file "old" 7)]
            [Config.versionDir ⟨["r"]⟩ "v1"]).read (Config.binPath ⟨["r"]⟩ bin)) ∧
      ((∀ bin ∈ ["forge"],
        (Fs.mk [(Config.binPath ⟨["r"]⟩ "forge", .file "old" 7)]
          [Config.versionDir ⟨["r"]⟩ "v1"]).read
            (Config.versionDir ⟨["r"]⟩ "v1" ++ [bin]) = none) →
        fs' = Fs.mk [(Config.binPath ⟨["r"]⟩ "forge", .file "old" 7)]
          [Config.versionDir ⟨["r"]⟩ "v1"]) :=
  ⟨by decide, c10_use_version_skips_absent ⟨["r"]⟩ ["forge"] _ "v1" (by decide)⟩

/-- C6 counterexample: a local-path install on the POSIX build places a
*symbolic link* at `binDir/forge`, refuting "the active binary is always a
full copy, never a symbolic link" for the local-build path. -/
theorem c6_counterexample :
    ∃ fsX, installFromLocal true ⟨["h"]⟩ ["proj"] ["forge"] ⟨[], []⟩ = .ok fsX ∧
      fsX.read (Config.binPath ⟨["h"]⟩ "forge") =
        some (.symlink ["proj", "target", "release", "forge"]) :=
  ⟨_, rfl, by decide⟩

/-- C6 amended: on the activation path used by the prebuilt and source-build
flows (`use_version`), the file installed at `binDir/<name>` is always a
full regular-file copy of the version's binary carrying mode `0o755`; the
local-build path instead leaves a symbolic link to the built binary (on the
POSIX build), so the claim's "never a symbolic link" holds for `use_version`
activation but not for local installs. -/
theorem c6_active_binary (cfg : Config) (bins : List String) :
    (∀ fs tag fs' bin c m, useVersion cfg bins fs tag = .ok fs' → bin ∈ bins →
      fs.read (cfg.versionDir tag ++ [bin]) = some (.file c m) →
      fs'.read (cfg.binPath bin) = some (.file c 0o755)) ∧
    (∀ localPath fs fs' bin, installFromLocal true cfg localPath bins fs = .ok fs' →
      bin ∈ bins →
      fs'.read (cfg.binPath bin) =
        some (.symlink (localPath ++ ["target", "release", bin]))) := by
  constructor
  · intro fs tag fs' bin c m hok hmem hsrc
    unfold useVersion at hok
    split at hok
    · cases hok
      exact useVersionFold_read_copied cfg tag bins fs bin c m hmem hsrc
    · cases hok
  · intro localPath fs fs' bin hok hmem
    unfold installFromLocal at hok
    simp only [Bool.not_true, if_false] at hok
    cases hok
    exact installFromLocalFold_read_mem cfg localPath bins fs bin hmem

/-- C6 witness: activating a version directory holding a regular file
`bytes` installs a regular-file copy with mode `0o755` at `binDir/forge`. -/
theorem c6_active_binary_witness :
    ∃ fs', useVersion ⟨["h"]⟩ ["forge"]
        (Fs.mk [(Config.versionDir ⟨["h"]⟩ "v1" ++ ["forge"], .file "bytes" 0o644)]
          [Config.versionDir ⟨["h"]⟩ "v1"]) "v1" = .ok fs' ∧
      fs'.read (Config.binPath ⟨["h"]⟩ "forge") = some (.file "bytes" 0o755) := by
  refine ⟨_, rfl, ?_⟩
  exact (c6_active_binary ⟨["h"]⟩ ["forge"]).1
    (Fs.mk [(Config.versionDir ⟨["h"]⟩ "v1" ++ ["forge"], .file "bytes" 0o644)]
      [Config.versionDir ⟨["h"]⟩ "v1"]) "v1" _ "forge" "bytes" 0o644 rfl
    (by decide) (by decide)

/-- C4: the attestation step degrades to `None` (continue unverified) when
the attestation-text fetch fails or its first line is empty or contains the
not-found marker; by contrast, malformed JSON, a malformed base64 payload,
or malformed decoded JSON in a successfully fetched artifact is a hard
error. -/
theorem c4_attestation_error_policy (codec : JsonCodec) (hash : String → String)
    (cfg : Config) (w : World) (version : String) (bins : List String) (fs : Fs) :
    (w.attTxt = none →
      fetchAndVerifyAttestation codec hash cfg w version bins fs = .ok (.inr none)) ∧
    (∀ body, w.attTxt = some body →
      ((firstLine body).isEmpty = true ∨
        containsSub (firstLine body) "Not Found" = true) →
      fetchAndVerifyAttestation codec hash cfg w version bins fs = .ok (.inr none)) ∧
    (∀ body art, w.attTxt = some body → (firstLine body).isEmpty = false →
      containsSub (firstLine body) "Not Found" = false → w.artifact = some art →
      codec.fromStr art = none →
      fetchAndVerifyAttestation codec hash cfg w version bins fs =
        .error .integrity) ∧
    (∀ body art parsed payloadB64, w.attTxt = some body →
      (firstLine body).isEmpty = false →
      containsSub (firstLine body) "Not Found" = false → w.artifact = some art →
      codec.fromStr art = some parsed →
      ((parsed.get "dsseEnvelope").get "payload").asStr = some payloadB64 →
      codec.b64decode payloadB64 = none →
      fetchAndVerifyAttestation codec hash cfg w version bins fs =
        .error .integrity) ∧
    (∀ body art parsed payloadB64 bytes, w.attTxt = some body →
      (firstLine body).isEmpty = false →
      containsSub (firstLine body) "Not Found" = false → w.artifact = some art →
      codec.fromStr art = some parsed →
      ((parsed.get "dsseEnvelope").get "payload").asStr = some payloadB64 →
      codec.b64decode payloadB64 = some bytes → codec.fromBytes bytes = none →
      fetchAndVerifyAttestation codec hash cfg w version bins fs =
        .error .integrity) := by
  refine ⟨?_, ?_, ?_, ?_, ?_⟩
  · intro h
    unfold fetchAndVerifyAttestation
    rw [h]
  · intro body htxt hbad
    unfold fetchAndVerifyAttestation
    rw [htxt]
    rcases hbad with hb | hb <;> simp [hb]
  · intro body art htxt h1 h2 hart hparse
    unfold fetchAndVerifyAttestation
    rw [htxt]
    simp [h1, h2, hart, parseAttestationPayload, hparse]
  · intro body art parsed payloadB64 htxt h1 h2 hart hparse hpay hb64
    unfold fetchAndVerifyAttestation
    rw [htxt]
    simp [h1, h2, hart, parseAttestationPayload, hparse, hpay, hb64]
  · intro body art parsed payloadB64 bytes htxt h1 h2 hart hparse hpay hb64 hbytes
    unfold fetchAndVerifyAttestation
    rw [htxt]
    simp [h1, h2, hart, parseAttestationPayload, hparse, hpay, hb64, hbytes]

/-- C4 witness: a fetch failure of the text resource yields `None` at a
concrete input, and a fetched artifact that fails JSON parsing is a hard
error at a concrete input. -/
theorem c4_attestation_error_policy_witness :
    fetchAndVerifyAttestation ⟨fun _ => none, fun _ => none, fun _ => none⟩ id
      ⟨["h"]⟩ ⟨none, none, none, none⟩ "v1" ["forge"] ⟨[], []⟩ = .ok (.inr none) ∧
    ((firstLine "https://link\n").isEmpty = false ∧
      containsSub (firstLine "https://link\n") "Not Found" = false ∧
      fetchAndVerifyAttestation ⟨fun _ => none, fun _ => none, fun _ => none⟩ id
        ⟨["h"]⟩ ⟨some "https://link\n", some "badjson", none, none⟩ "v1" ["forge"]
        ⟨[], []⟩ = .error .integrity) :=
  ⟨(c4_attestation_error_policy ⟨fun _ => none, fun _ => none, fun _ => none⟩ id
      ⟨["h"]⟩ ⟨none, none, none, none⟩ "v1" ["forge"] ⟨[], []⟩).1 rfl,
   by decide, by decide,
   (c4_attestation_error_policy ⟨fun _ => none, fun _ => none, fun _ => none⟩ id
      ⟨["h"]⟩ ⟨some "https://link\n", some "badjson", none, none⟩ "v1" ["forge"]
      ⟨[], []⟩).2.2.1 "https://link\n" "badjson" rfl (by decide) (by decide) rfl rfl⟩

/-- C9: once the release metadata is fetched and parsed and the running
build's version parses, the check returns `Some r` exactly when the tag with
its leading `v` stripped parses as a semantic version strictly greater than
the current one (and `r` is that stripped string); a remote version that
fails to parse yields `Ok(None)`, not an error. -/
theorem c9_check_for_update (currentVersion : String) (fromStr : String → Option Json)
    (fetch : Option String) (response : String) (json : Json) (tagName : String)
    (current : SemVer)
    (hf : fetch = some response) (hj : fromStr response = some json)
    (ht : (json.get "tag_name").asStr = some tagName)
    (hc : parseSemVer currentVersion = some current) :
    (∀ r, checkForUpdate currentVersion fromStr fetch = .ok (some r) ↔
      (∃ remote, parseSemVer (stripLeadingV tagName) = some remote ∧
        ltSemVer current remote = true ∧ r = stripLeadingV tagName)) ∧
    (parseSemVer (stripLeadingV tagName) = none →
      checkForUpdate currentVersion fromStr fetch = .ok none) := by
  unfold checkForUpdate
  simp only [hf, hj, ht, hc]
  constructor
  · intro r
    cases hr : parseSemVer (stripLeadingV tagName) with
    | none => simp [hr]
    | some remote =>
      by_cases hlt : ltSemVer current remote = true
      · simp only [hr, hlt, if_pos]
        constructor
        · intro h
          cases h
          exact ⟨remote, rfl, hlt, rfl⟩
        · rintro ⟨remote', hr', _, hreq⟩
          rw [hreq]
      · simp only [hr, if_neg hlt]
        constructor
        · intro h
          cases h
        · rintro ⟨remote', hr', hlt', _⟩
          injection hr' with h
          subst h
          exact absurd hlt' hlt
  · intro hr
    simp [hr]

/-- C9 witness: current version "1.0.0" and remote tag "v1.2.0" yield
`Some "1.2.0")`; the hypotheses are discharged at the concrete input. -/
theorem c9_check_for_update_witness :
    parseSemVer "1.0.0" = some ⟨1, 0, 0, []⟩ ∧
    checkForUpdate "1.0.0"
      (fun _ => some (.obj [("tag_name", .str "v1.2.0")])) (some "resp") =
      .ok (some "1.2.0") :=
  ⟨by decide,
    ((c9_check_for_update "1.0.0"
        (fun _ => some (.obj [("tag_name", .str "v1.2.0")])) (some "resp") "resp"
        (.obj [("tag_name", .str "v1.2.0")]) "v1.2.0" ⟨1, 0, 0, []⟩ rfl rfl rfl
        (by decide)).1 "1.2.0").mpr
      ⟨⟨1, 2, 0, []⟩, by decide, by decide, by decide⟩⟩

/-- C3: with an attestation bundle in hand, post-installation verification
fails exactly when some expected binary has no digest entry in the bundle,
is missing from the version directory, or has a digest different from the
bundle's; the offending binary is reported individually; and on such a
failure the install aborts with the already-extracted files left in place in
the version directory (no rollback). -/
theorem c3_post_install_verification (codec : JsonCodec) (hash : String → String)
    (cfg : Config) (w : World) (bins : List String) :
    (∀ tag hashes fs,
      (verifyInstalledBinaries hash cfg tag bins hashes fs).2 = true ↔
        ∃ bin ∈ bins,
          (assocFind bin hashes = none ∨
           (∃ e, assocFind bin hashes = some e ∧
             fs.contentAt (cfg.versionDir tag ++ [bin]) = none) ∨
           (∃ e c, assocFind bin hashes = some e ∧
             fs.contentAt (cfg.versionDir tag ++ [bin]) = some c ∧ hash c ≠ e))) ∧
    (∀ tag hashes fs bin, bin ∈ bins →
      (assocFind bin hashes = none →
        VerifyEvent.noExpectedHash bin ∈
          (verifyInstalledBinaries hash cfg tag bins hashes fs).1) ∧
      (∀ e, assocFind bin hashes = some e →
        fs.contentAt (cfg.versionDir tag ++ [bin]) = none →
        VerifyEvent.notFound bin ∈
          (verifyInstalledBinaries hash cfg tag bins hashes fs).1) ∧
      (∀ e c, assocFind bin hashes = some e →
        fs.contentAt (cfg.versionDir tag ++ [bin]) = some c → hash c ≠ e →
        VerifyEvent.mismatch bin e (hash c) ∈
          (verifyInstalledBinaries hash cfg tag bins hashes fs).1)) ∧
    (∀ args fs body art hashes entries,
      args.force = false → w.attTxt = some body →
      (firstLine body).isEmpty = false →
      containsSub (firstLine body) "Not Found" = false → w.artifact = some art →
      parseAttestationPayload codec art = .ok hashes →
      cfg.versionDir (prebuiltTag args) ∉ fs.dirs → w.archive = some entries →
      (verifyInstalledBinaries hash cfg (prebuiltTag args) bins hashes
        (extractedFs cfg (prebuiltTag args) entries fs)).2 = true →
      installPrebuilt codec hash cfg w args bins fs =
        .failed .integrity (extractedFs cfg (prebuiltTag args) entries fs) 1 ∧
      ((entries.map Prod.fst).Nodup → ∀ e ∈ entries,
        (extractedFs cfg (prebuiltTag args) entries fs).read
          (cfg.versionDir (prebuiltTag args) ++ [e.1]) = some (.file e.2 0o755))) := by
  refine ⟨?_, ?_, ?_⟩
  · intro tag hashes fs
    exact verifyInstalledBinaries_failed_iff hash cfg tag bins hashes fs
  · intro tag hashes fs bin hb
    refine ⟨?_, ?_, ?_⟩
    · intro h
      exact List.mem_map.mpr ⟨bin, hb, by simp [verifyBin, h]⟩
    · intro e he hc
      exact List.mem_map.mpr ⟨bin, hb, by simp [verifyBin, he, hc]⟩
    · intro e c he hc hne
      refine List.mem_map.mpr ⟨bin, hb, ?_⟩
      simp only [verifyBin, he, hc]
      rw [show (hash c == e) = false from beq_eq_false_iff_ne.mpr hne]
      simp
  · intro args fs body art hashes entries hforce htxt h1 h2 hart hparse hnodir
      harch hvfail
    constructor
    · rw [installPrebuilt_fresh codec hash cfg w args bins fs body art hashes
        entries hforce htxt h1 h2 hart hparse hnodir harch, if_pos hvfail]
    · intro hnodup e he
      have : (e.1, e.2) ∈ entries := by
        rw [Prod.mk.eta]
        exact he
      exact extractedFs_read_of_mem_nodup cfg (prebuiltTag args) entries fs e.1 e.2
        hnodup this

/-- C1: with a matching attestation bundle and without `--force`, if the
version directory already exists and every expected binary is present with
the bundle's digest, the prebuilt install performs no archive download and
goes straight to activation, terminating successfully (the cache
short-circuit exit); consequently, a fresh install that downloads, passes
verification and activates is followed, on the second identical run, by a
zero-download run that still ends with the version activated. -/
theorem c1_idempotent_reinstall (codec : JsonCodec) (hash : String → String)
    (cfg : Config) (w : World) (bins : List String) :
    (∀ args fs body art hashes,
      args.force = false → w.attTxt = some body →
      (firstLine body).isEmpty = false →
      containsSub (firstLine body) "Not Found" = false → w.artifact = some art →
      parseAttestationPayload codec art = .ok hashes →
      cfg.versionDir (prebuiltTag args) ∈ fs.dirs →
      (∀ bin ∈ bins, ∃ content,
        fs.contentAt (cfg.versionDir (prebuiltTag args) ++ [bin]) = some content ∧
        assocFind bin hashes = some (hash content)) →
      installPrebuilt codec hash cfg w args bins fs =
        .exited (bins.foldl (useVersionStep cfg (prebuiltTag args)) fs) 0) ∧
    (∀ args fs body art hashes entries,
      args.force = false → w.attTxt = some body →
      (firstLine body).isEmpty = false →
      containsSub (firstLine body) "Not Found" = false → w.artifact = some art →
      parseAttestationPayload codec art = .ok hashes →
      cfg.versionDir (prebuiltTag args) ∉ fs.dirs → w.archive = some entries →
      (∀ bin ∈ bins, bin ∈ entries.map Prod.fst) →
      (verifyInstalledBinaries hash cfg (prebuiltTag args) bins hashes
        (extractedFs cfg (prebuiltTag args) entries fs)).2 = false →
      ∃ fs1, installPrebuilt codec hash cfg w args bins fs = .completed fs1 2 ∧
        installPrebuilt codec hash cfg w args bins fs1 =
          .exited (bins.foldl (useVersionStep cfg (prebuiltTag args)) fs1) 0) := by
  constructor
  · intro args fs body art hashes hforce htxt h1 h2 hart hparse hdir hmatch
    exact installPrebuilt_cache_hit codec hash cfg w args bins fs body art hashes
      hforce htxt h1 h2 hart hparse hdir hmatch
  · intro args fs body art hashes entries hforce htxt h1 h2 hart hparse hnodir
      harch hcov hvpass
    refine ⟨bins.foldl (useVersionStep cfg (prebuiltTag args))
        (downloadManpages cfg w (extractedFs cfg (prebuiltTag args) entries fs)),
      ?_, ?_⟩
    · rw [installPrebuilt_fresh codec hash cfg w args bins fs body art hashes
        entries hforce htxt h1 h2 hart hparse hnodir harch,
        if_neg (by rw [hvpass]; exact Bool.false_ne_true)]
    · apply installPrebuilt_cache_hit codec hash cfg w args bins _ body art hashes
        hforce htxt h1 h2 hart hparse
      · rw [useVersionFold_dirs]
        exact downloadManpages_mem_dirs cfg w _ _
          (extractedFs_self_mem_dirs cfg _ entries fs)
      · intro bin hb
        obtain ⟨c, hcX, hmemE⟩ :=
          extractedFs_read_of_name_mem cfg (prebuiltTag args) entries fs bin
            (hcov bin hb)
        have hread1 : (bins.foldl (useVersionStep cfg (prebuiltTag args))
            (downloadManpages cfg w
              (extractedFs cfg (prebuiltTag args) entries fs))).read
            (cfg.versionDir (prebuiltTag args) ++ [bin]) =
            some (.file c 0o755) := by
          rw [useVersionFold_read_vdirFile, downloadManpages_read_vdirFile, hcX]
        refine ⟨c, Fs.contentAt_of_read_file _ _ _ _ hread1, ?_⟩
        obtain ⟨e, c', he, hc', heq⟩ :=
          verifyInstalledBinaries_passed hash cfg (prebuiltTag args) bins hashes
            (extractedFs cfg (prebuiltTag args) entries fs) hvpass bin hb
        rw [Fs.contentAt_of_read_file _ _ _ _ hcX] at hc'
        injection hc' with hcc
        rw [he, ← heq, hcc]

/-! ### Concrete fixtures for the install-flow witnesses -/

def exCfg : Config := ⟨["home", ".foundry"]⟩

def exBins : List String := ["forge", "cast"]

def exHash : String → String := fun s => "H" ++ s

def exEnvelope : Json := .obj [("dsseEnvelope", .obj [("payload", .str "B64")])]

def exGood : Json := .obj [("subject", .arr [
  .obj [("name", .str "forge"), ("digest", .obj [("sha256", .str "Hforgebytes")])],
  .obj [("name", .str "cast"), ("digest", .obj [("sha256", .str "Hcastbytes")])]])]

def exBad : Json := .obj [("subject", .arr [
  .obj [("name", .str "forge"), ("digest", .obj [("sha256", .str "WRONG")])],
  .obj [("name", .str "cast"), ("digest", .obj [("sha256", .str "Hcastbytes")])]])]

def exCodec : JsonCodec :=
  ⟨fun s => if s = "ARTIFACT" then some exEnvelope else none,
   fun s => if s = "B64" then some "DECODED" else none,
   fun s => if s = "DECODED" then some exGood else none⟩

def exCodecBad : JsonCodec :=
  ⟨fun s => if s = "ARTIFACT" then some exEnvelope else none,
   fun s => if s = "B64" then some "DECODED" else none,
   fun s => if s = "DECODED" then some exBad else none⟩

def exWorld : World :=
  ⟨some "https://link\n", some "ARTIFACT",
   some [("forge", "forgebytes"), ("cast", "castbytes")], some [("m1", "man")]⟩

def exArgs : Args := ⟨some "1.5.0", false⟩

def exArchive : List (String × String) :=
  [("forge", "forgebytes"), ("cast", "castbytes")]

/-- C1 witness: from an empty filesystem with a matching attestation, the
first run completes with two download attempts, and the second run exits
through the cache short-circuit with zero download attempts, activating the
version. -/
theorem c1_idempotent_reinstall_witness :
    (verifyInstalledBinaries exHash exCfg (prebuiltTag exArgs) exBins
      [("cast", "Hcastbytes"), ("forge", "Hforgebytes")]
      (extractedFs exCfg (prebuiltTag exArgs) exArchive ⟨[], []⟩)).2 = false ∧
    ∃ fs1, installPrebuilt exCodec exHash exCfg exWorld exArgs exBins ⟨[], []⟩ =
        .completed fs1 2 ∧
      installPrebuilt exCodec exHash exCfg exWorld exArgs exBins fs1 =
        .exited (exBins.foldl (useVersionStep exCfg (prebuiltTag exArgs)) fs1) 0 :=
  ⟨rfl,
   (c1_idempotent_reinstall exCodec exHash exCfg exWorld exBins).2 exArgs ⟨[], []⟩
     "https://link\n" "ARTIFACT" [("cast", "Hcastbytes"), ("forge", "Hforgebytes")]
     exArchive rfl rfl rfl rfl rfl rfl (by decide) rfl (by decide) rfl⟩

/-- C3 witness: an attestation bundle whose digest for `forge` is wrong makes
the install fail with an integrity error after extraction, while the
extracted `forge` and `cast` binaries remain present in the version
directory. -/
theorem c3_post_install_verification_witness :
    (verifyInstalledBinaries exHash exCfg (prebuiltTag exArgs) exBins
      [("cast", "Hcastbytes"), ("forge", "WRONG")]
      (extractedFs exCfg (prebuiltTag exArgs) exArchive ⟨[], []⟩)).2 = true ∧
    (installPrebuilt exCodecBad exHash exCfg exWorld exArgs exBins ⟨[], []⟩ =
        .failed .integrity
          (extractedFs exCfg (prebuiltTag exArgs) exArchive ⟨[], []⟩) 1 ∧
      ((exArchive.map Prod.fst).Nodup → ∀ e ∈ exArchive,
        (extractedFs exCfg (prebuiltTag exArgs) exArchive ⟨[], []⟩).read
          (exCfg.versionDir (prebuiltTag exArgs) ++ [e.1]) =
          some (.file e.2 0o755))) :=
  ⟨rfl,
   (c3_post_install_verification exCodecBad exHash exCfg exWorld exBins).2.2 exArgs
     ⟨[], []⟩ "https://link\n" "ARTIFACT"
     [("cast", "Hcastbytes"), ("forge", "WRONG")] exArchive rfl rfl rfl rfl rfl rfl
     (by decide) rfl rfl⟩

/-! ### Lemmas about zip-entry path resolution -/

theorem resolveFrom_append (s : List String) (xs ys : List Comp) :
    resolveFrom s (xs ++ ys) = resolveFrom (resolveFrom s xs) ys := by
  induction xs generalizing s with
  | nil => rfl
  | cons c rest ih => cases c <;> simp [resolveFrom, ih]

theorem resolveFrom_normals (s : List String) (dest : List String) :
    resolveFrom s (dest.map Comp.normal) = s ++ dest := by
  induction dest generalizing s with
  | nil => simp [resolveFrom]
  | cons d rest ih => simp [resolveFrom, ih]

theorem enclosedDepth_append_isSome (xs ys : List Comp) :
    ∀ k, (enclosedDepth k (xs ++ ys)).isSome = true →
      (enclosedDepth k xs).isSome = true := by
  induction xs with
  | nil => intro k _; simp [enclosedDepth]
  | cons c rest ih =>
    intro k h
    cases c with
    | normal s => exact ih (k + 1) h
    | curDir => exact ih k h
    | parentDir =>
      cases k with
      | zero => simp [enclosedDepth] at h
      | succ k' => exact ih k' h
    | rootDir => simp [enclosedDepth] at h

theorem enclosedDepth_resolveFrom (name : List Comp) :
    ∀ k (extra : List String) (base : List String), extra.length = k →
      (enclosedDepth k name).isSome = true →
      ∃ suffix, resolveFrom (base ++ extra) name = base ++ suffix := by
  induction name with
  | nil => intro k extra base _ _; exact ⟨extra, rfl⟩
  | cons c rest ih =>
    intro k extra base hlen h
    cases c with
    | normal s =>
      obtain ⟨suffix, hs⟩ := ih (k + 1) (extra ++ [s]) base (by simp [hlen]) h
      refine ⟨suffix, ?_⟩
      rw [show resolveFrom (base ++ extra) (Comp.normal s :: rest) =
        resolveFrom ((base ++ extra) ++ [s]) rest from rfl, List.append_assoc]
      exact hs
    | curDir => exact ih k extra base hlen h
    | parentDir =>
      cases k with
      | zero => simp [enclosedDepth] at h
      | succ k' =>
        rcases List.eq_nil_or_concat extra with h1 | ⟨init, lastC, h1⟩
        · subst h1; simp at hlen
        · subst h1
          simp only [List.concat_eq_append] at hlen ⊢
          have hinit : init.length = k' := by simpa using hlen
          obtain ⟨suffix, hs⟩ := ih k' init base hinit (by simpa [enclosedDepth] using h)
          refine ⟨suffix, ?_⟩
          rw [show resolveFrom (base ++ (init ++ [lastC])) (Comp.parentDir :: rest) =
            resolveFrom (base ++ (init ++ [lastC])).dropLast rest from rfl,
            ← List.append_assoc, List.dropLast_concat]
          exact hs
    | rootDir => simp [enclosedDepth] at h

theorem resolvesWithin_iff_enclosedDepth (name : List Comp) :
    ∀ k (extra : List String) (dest : List String), extra.length = k →
      resolvesWithin dest (dest ++ extra) name = (enclosedDepth k name).isSome := by
  induction name with
  | nil => intro k extra dest _; simp [resolvesWithin, enclosedDepth]
  | cons c rest ih =>
    intro k extra dest hlen
    cases c with
    | normal s =>
      rw [show resolvesWithin dest (dest ++ extra) (Comp.normal s :: rest) =
        resolvesWithin dest ((dest ++ extra) ++ [s]) rest from rfl,
        List.append_assoc]
      exact ih (k + 1) (extra ++ [s]) dest (by simp [hlen])
    | curDir => exact ih k extra dest hlen
    | rootDir => simp [resolvesWithin, enclosedDepth]
    | parentDir =>
      cases k with
      | zero =>
        have hx : extra = [] := List.eq_nil_of_length_eq_zero hlen
        subst hx
        simp [resolvesWithin, enclosedDepth]
      | succ k' =>
        rcases List.eq_nil_or_concat extra with h1 | ⟨init, lastC, h1⟩
        · subst h1; simp at hlen
        · subst h1
          simp only [List.concat_eq_append] at hlen ⊢
          have hinit : init.length = k' := by simpa using hlen
          have hlt : ¬(dest ++ (init ++ [lastC])).length ≤ dest.length := by
            simp
          rw [show resolvesWithin dest (dest ++ (init ++ [lastC]))
              (Comp.parentDir :: rest) =
            (if (dest ++ (init ++ [lastC])).length ≤ dest.length then false
             else resolvesWithin dest (dest ++ (init ++ [lastC])).dropLast rest)
            from rfl,
            if_neg hlt, ← List.append_assoc, List.dropLast_concat]
          exact ih k' init dest hinit

theorem enclosedName_elim (name path : List Comp) (h : enclosedName name = some path) :
    path = name ∧ name.any compHasNul = false ∧
      (enclosedDepth 0 name).isSome = true := by
  unfold enclosedName at h
  by_cases hn : name.any compHasNul
  · simp [hn] at h
  · cases hd : enclosedDepth 0 name with
    | none => simp [hn, hd] at h
    | some d =>
      simp only [hn, if_false, hd, Bool.false_eq_true] at h
      injection h with h1
      exact ⟨h1.symm, by simpa using hn, by simp [hd]⟩

theorem enclosedName_of_ok (name : List Comp) (hn : name.any compHasNul = false)
    (hd : (enclosedDepth 0 name).isSome = true) : enclosedName name = some name := by
  unfold enclosedName
  rw [hn]
  cases hdd : enclosedDepth 0 name with
  | none => rw [hdd] at hd; simp at hd
  | some d => simp

theorem mem_extractZip_iff (dest : List String) (entries : List ZipEntry)
    (a : FsAction) :
    a ∈ extractZip dest entries ↔ ∃ e ∈ entries, a ∈ entryActions dest e := by
  simp [extractZip, List.mem_flatten]

theorem enclosedName_eq_none_of_depth (name : List Comp)
    (h : (enclosedDepth 0 name).isSome = false) : enclosedName name = none := by
  unfold enclosedName
  cases hd : enclosedDepth 0 name with
  | none => by_cases hn : name.any compHasNul <;> simp [hn]
  | some d => rw [hd] at h; simp at h

theorem entryActions_path_sound (dest : List String) (e : ZipEntry) (a : FsAction)
    (ha : a ∈ entryActions dest e) :
    (∃ suffix, resolveFrom [] a.path = dest ++ suffix) ∨
      a = .mkdir ((dest.map Comp.normal).dropLast) := by
  unfold entryActions at ha
  cases henc : enclosedName e.name with
  | none => rw [henc] at ha; simp at ha
  | some path =>
    rw [henc] at ha
    obtain ⟨hpath, hnul, hdepth⟩ := enclosedName_elim e.name path henc
    subst hpath
    have hout : ∃ suffix,
        resolveFrom [] (dest.map Comp.normal ++ e.name) = dest ++ suffix := by
      rw [resolveFrom_append, resolveFrom_normals]
      simpa using enclosedDepth_resolveFrom e.name 0 [] dest rfl hdepth
    rcases List.mem_append.mp ha with h1 | h2
    · cases hd : e.isDir with
      | true =>
        rw [hd] at h1
        simp only [if_true] at h1
        rcases List.mem_singleton.mp h1 with rfl
        exact Or.inl hout
      | false =>
        rw [hd] at h1
        simp only [Bool.false_eq_true, if_false] at h1
        rcases List.mem_cons.mp h1 with rfl | h1
        · rcases List.eq_nil_or_concat e.name with hn | ⟨init, lastC, hn⟩
          · rw [hn]
            right
            simp
          · left
            rw [hn]
            simp only [List.concat_eq_append, ← List.append_assoc,
              List.dropLast_concat, FsAction.path]
            rw [resolveFrom_append, resolveFrom_normals]
            have hinit : (enclosedDepth 0 init).isSome = true := by
              apply enclosedDepth_append_isSome init [lastC] 0
              rw [hn] at hdepth
              simpa [List.concat_eq_append] using hdepth
            simpa using enclosedDepth_resolveFrom init 0 [] dest rfl hinit
        · rcases List.mem_singleton.mp h1 with rfl
          exact Or.inl hout
    · cases hm : e.unixMode with
      | none => rw [hm] at h2; simp at h2
      | some m =>
        rw [hm] at h2
        rcases List.mem_singleton.mp h2 with rfl
        exact Or.inl hout

/-- C2: zip extraction and relative traversal.  (1) An entry whose decoded
name would resolve outside the destination directory produces no filesystem
operation at all (no file written, no directory created).  (2) Every
operation the extraction performs resolves to a path inside the destination
— except the degenerate directory creation of the destination's own parent,
issued only by an entry whose name resolves to the destination itself.
(3) In particular every *file write* resolves inside the destination.
(4) Entries with valid enclosed names are written: a directory entry gets
its directory created, a file entry gets its file written. -/
theorem c2_extract_zip_traversal (dest : List String) (entries : List ZipEntry) :
    (∀ e ∈ entries, resolvesWithin dest dest e.name = false →
      entryActions dest e = []) ∧
    (∀ a ∈ extractZip dest entries,
      (∃ suffix, resolveFrom [] a.path = dest ++ suffix) ∨
        a = .mkdir ((dest.map Comp.normal).dropLast)) ∧
    (∀ p content, FsAction.write p content ∈ extractZip dest entries →
      ∃ suffix, resolveFrom [] p = dest ++ suffix) ∧
    (∀ e ∈ entries, resolvesWithin dest dest e.name = true →
      e.name.any compHasNul = false →
      (e.isDir = true →
        FsAction.mkdir (dest.map Comp.normal ++ e.name) ∈ extractZip dest entries) ∧
      (e.isDir = false →
        FsAction.write (dest.map Comp.normal ++ e.name) e.content ∈
          extractZip dest entries)) := by
  refine ⟨?_, ?_, ?_, ?_⟩
  · intro e _ hesc
    have hiff := resolvesWithin_iff_enclosedDepth e.name 0 [] dest rfl
    rw [List.append_nil] at hiff
    rw [hiff] at hesc
    unfold entryActions
    rw [enclosedName_eq_none_of_depth e.name hesc]
  · intro a ha
    obtain ⟨e, _, hae⟩ := (mem_extractZip_iff dest entries a).mp ha
    exact entryActions_path_sound dest e a hae
  · intro p content hw
    obtain ⟨e, _, hae⟩ := (mem_extractZip_iff dest entries _).mp hw
    rcases entryActions_path_sound dest e _ hae with h | h
    · exact h
    · cases h
  · intro e he hok hnul
    have hiff := resolvesWithin_iff_enclosedDepth e.name 0 [] dest rfl
    rw [List.append_nil] at hiff
    rw [hiff] at hok
    have henc := enclosedName_of_ok e.name hnul hok
    constructor
    · intro hd
      refine (mem_extractZip_iff dest entries _).mpr ⟨e, he, ?_⟩
      unfold entryActions
      rw [henc, hd]
      simp
    · intro hd
      refine (mem_extractZip_iff dest entries _).mpr ⟨e, he, ?_⟩
      unfold entryActions
      rw [henc, hd]
      simp

/-- C2 witness: an escaping entry (`../evil`) is skipped while a valid entry
(`x`) is written, at a concrete destination and entry list. -/
theorem c2_extract_zip_traversal_witness :
    resolvesWithin ["d"] ["d"] [.parentDir, .normal "evil"] = false ∧
    entryActions ["d"]
      ⟨[.parentDir, .normal "evil"], false, "no", none⟩ = [] ∧
    resolvesWithin ["d"] ["d"] [.normal "x"] = true ∧
    FsAction.write [.normal "d", .normal "x"] "hi" ∈
      extractZip ["d"]
        [⟨[.normal "x"], false, "hi", some 420⟩,
         ⟨[.parentDir, .normal "evil"], false, "no", none⟩] :=
  ⟨by decide,
   (c2_extract_zip_traversal ["d"]
     [⟨[.normal "x"], false, "hi", some 420⟩,
      ⟨[.parentDir, .normal "evil"], false, "no", none⟩]).1
     ⟨[.parentDir, .normal "evil"], false, "no", none⟩ (by decide) (by decide),
   by decide,
   ((c2_extract_zip_traversal ["d"]
     [⟨[.normal "x"], false, "hi", some 420⟩,
      ⟨[.parentDir, .normal "evil"], false, "no", none⟩]).2.2.2
     ⟨[.normal "x"], false, "hi", some 420⟩ (by decide) (by decide) (by decide)).2
     rfl⟩

end Foundryup
